import Mathlib

/-!
Shallow embedding of the spatial-addressing core of the repository
(hexagonal cube-coordinate layout from `src/hex_layout.rs`, square-grid
voxel layout and streaming systems from `crates/gen_terrain/src/voxel/`,
and the older hex coordinate type from `src/terrain/hex.rs`), together
with theorems settling the claims about it.

Machine integers (`i32`, `i64`) are embedded as `Int`; `f32` values that
enter integer decisions are embedded as `Rat` with explicit
truncation-toward-zero casts.  Rust `%` on integers is truncated
remainder (`Int.tmod`), `div_euclid` is Euclidean division (`Int.ediv`,
Lean's `/` on `Int`).  `Vec<T>` becomes `List T` and indexed stores
become `List.set`.
-/

/-- Inclusive integer range, the embedding of Rust `a..=b` (empty when `b < a`). -/
def intRangeIncl (a b : Int) : List Int :=
  (List.range (b + 1 - a).toNat).map (fun (n : Nat) => a + (n : Int))

namespace hex_layout

/-- Cube hex coordinate, from `struct CubeHexCoord(pub i32, pub i32, pub i32)`. -/
structure CubeHexCoord where
  x : Int
  y : Int
  z : Int
deriving DecidableEq, Repr

instance : Inhabited CubeHexCoord := ⟨⟨0, 0, 0⟩⟩

/-- `CubeHexCoord::from_axis_coord(q, r)`. -/
def CubeHexCoord.from_axis_coord (q r : Int) : CubeHexCoord :=
  ⟨q, r, -(q + r)⟩

/-- `CubeHexCoord::from_xz(x, z)`. -/
def CubeHexCoord.from_xz (x z : Int) : CubeHexCoord :=
  ⟨x, -(x + z), z⟩

/-- `impl Add for CubeHexCoord` (componentwise, `src/hex_layout.rs`). -/
instance : Add CubeHexCoord :=
  ⟨fun a b => ⟨a.x + b.x, a.y + b.y, a.z + b.z⟩⟩

/-- `impl Sub for CubeHexCoord` (componentwise, `src/hex_layout.rs`). -/
instance : Sub CubeHexCoord :=
  ⟨fun a b => ⟨a.x - b.x, a.y - b.y, a.z - b.z⟩⟩

/-- Componentwise negation (specification-side helper used to state symmetry). -/
instance : Neg CubeHexCoord :=
  ⟨fun a => ⟨-a.x, -a.y, -a.z⟩⟩

/-- `CubeHexCoord::distance_step`: half the L1 distance of the two triples. -/
def CubeHexCoord.distance_step (a b : CubeHexCoord) : Int :=
  (((a.x - b.x).natAbs : Int) + ((a.y - b.y).natAbs : Int) + ((a.z - b.z).natAbs : Int)) / 2

/-- Extruded (3D) hex voxel id, from `struct ExtrudedCubeHexCoord(i32, i32, i32, i32)`. -/
structure ExtrudedCubeHexCoord where
  x : Int
  y : Int
  z : Int
  h : Int
deriving DecidableEq, Repr

/-- `ExtrudedCubeHexCoord::from_hex2d`. -/
def ExtrudedCubeHexCoord.from_hex2d (hex : CubeHexCoord) (height : Int) : ExtrudedCubeHexCoord :=
  ⟨hex.x, hex.y, hex.z, height⟩

/-- `ExtrudedCubeHexCoord::from_xzh`. -/
def ExtrudedCubeHexCoord.from_xzh (x z h : Int) : ExtrudedCubeHexCoord :=
  ⟨x, -x - z, z, h⟩

/-- `ExtrudedCubeHexCoord::get_base`. -/
def ExtrudedCubeHexCoord.get_base (v : ExtrudedCubeHexCoord) : CubeHexCoord :=
  ⟨v.x, v.y, v.z⟩

/-- Mutable state of the `build_lookup` loop: the three segment counters,
the lower/upper flag and the table being filled. -/
structure BuildState where
  section_start : Int
  upper : Int
  lower : Int
  is_lower : Bool
  table : List CubeHexCoord

/-- The coordinate value written by one iteration of the `build_lookup`
inner loop at a given `offset` (the body of `for offset in 0..=half_period`). -/
def build_entry (radius phase : Int) (st : BuildState) (offset : Int) : CubeHexCoord :=
  if offset ≤ radius then
    CubeHexCoord.from_xz (offset * phase) 0
  else
    let inner_max := if st.is_lower then st.lower else st.upper
    let inner_offset := offset - st.section_start
    let x_offset := if st.is_lower then radius + 1 else inner_max - radius
    let z_phase : Int := if st.is_lower then 1 else -1
    CubeHexCoord.from_xz ((inner_offset - x_offset) * phase)
      (((radius + radius + 1) - inner_max) * phase * z_phase)

/-- One iteration of the `build_lookup` inner loop: writes the entry for
`offset` at its key and advances the segment bookkeeping when the current
segment is exhausted (`inner_offset + 1 > inner_max`). -/
def build_step (radius phase period : Int) (st : BuildState) (offset : Int) : BuildState :=
  let key := if phase = 1 then offset else period - offset
  let table := st.table.set key.toNat (build_entry radius phase st offset)
  if offset ≤ radius then
    { st with table := table }
  else
    let inner_max := if st.is_lower then st.lower else st.upper
    let inner_offset := offset - st.section_start
    if inner_offset + 1 > inner_max then
      { section_start := offset
        upper := if st.is_lower then st.upper else st.upper - 1
        lower := if st.is_lower then st.lower + 1 else st.lower
        is_lower := !st.is_lower
        table := table }
    else
      { st with table := table }

/-- One pass of the outer `for &phase in [1, -1]` loop of `build_lookup`:
folds the inner loop over `offset in 0..=half_period` starting from the
freshly reset segment state. -/
def build_pass (radius phase period half_period : Int) (table : List CubeHexCoord) :
    List CubeHexCoord :=
  (List.foldl (build_step radius phase period)
    { section_start := radius
      upper := radius * 2
      lower := radius + 1
      is_lower := true
      table := table }
    (intRangeIncl 0 half_period)).table

/-- `CubeHexLayout::build_lookup`: returns `(period, chunk_lookup)` where the
table has `period + 1` entries and is filled by the two phase passes. -/
def build_lookup (chunk_voxel_radius : Int) : Int × List CubeHexCoord :=
  let radius := chunk_voxel_radius
  let offset_base := 3 * radius + 1
  let period := 3 * radius * radius + offset_base
  let half_period := (period - 1) / 2
  let table0 : List CubeHexCoord := List.replicate (period + 1).toNat default
  let table1 := build_pass radius 1 period half_period table0
  let table2 := build_pass radius (-1) period half_period table1
  (period, table2)

/-- `struct CubeHexLayout` (the `f32` fields are embedded as `Rat`). -/
structure CubeHexLayout where
  space_origin : CubeHexCoord
  voxel_radius : Rat
  voxel_height : Rat
  chunk_voxel_radius : Int
  chunk_voxel_period : Int
  chunk_voxel_height : Int
  chunk_lookup : List CubeHexCoord

/-- `CubeHexLayout::new`: builds the lookup table and stores it. -/
def CubeHexLayout.new (origin : CubeHexCoord) (voxel_radius : Rat) (chunk_radius : Int)
    (chunk_height : Int) (voxel_extrusion_height : Rat) : CubeHexLayout :=
  let pl := build_lookup chunk_radius
  { space_origin := origin
    voxel_radius := voxel_radius
    voxel_height := voxel_extrusion_height
    chunk_voxel_radius := chunk_radius
    chunk_voxel_height := chunk_height
    chunk_lookup := pl.2
    chunk_voxel_period := pl.1 }

/-- The table index computed by `CubeHexLayout::voxel_to_chunk` before the
lookup: the wrapped key `x_upper`, derived from the voxel's planar
coordinate with Rust's truncated `%` and the final negative-normalisation. -/
def CubeHexLayout.lookup_key (l : CubeHexLayout) (voxel : ExtrudedCubeHexCoord) : Int :=
  let radius := l.chunk_voxel_radius
  let offset_base := 3 * radius + 1
  let x_offset_based_on_z := Int.tmod (voxel.z * offset_base) l.chunk_voxel_period
  let x_transposed_axis := x_offset_based_on_z - voxel.x
  let x_closest := Int.tmod x_transposed_axis l.chunk_voxel_period
  if x_closest < 0 then x_closest + l.chunk_voxel_period else x_closest

/-- `CubeHexLayout::voxel_to_chunk`: add the looked-up chunk-center delta
to the voxel's planar coordinate. -/
def CubeHexLayout.voxel_to_chunk (l : CubeHexLayout) (voxel : ExtrudedCubeHexCoord) :
    CubeHexCoord :=
  voxel.get_base + l.chunk_lookup.getD (l.lookup_key voxel).toNat default

/-- Shared rotation block of `get_ring` / `get_chunk_neighbors`
(`(0..6).map(move |rot| { ... })` applied to an index triple). -/
def hex_rot_elem (t0 t1 t2 : Int) (rot : Nat) : CubeHexCoord :=
  let m : Int := if rot % 2 = 1 then -1 else 1
  let ix : Nat → Int := fun j => match j with
    | 0 => t0
    | 1 => t1
    | _ => t2
  CubeHexCoord.from_axis_coord (ix ((0 + rot) % 3) * m) (ix ((1 + rot) % 3) * m)

/-- `CubeHexLayout::get_ring`: the six rotated edges of the hex ring at
the given distance around `center`. -/
def CubeHexLayout.get_ring (_l : CubeHexLayout) (center : CubeHexCoord) (distance : Int) :
    List CubeHexCoord :=
  (intRangeIncl 1 distance).flatMap (fun i =>
    (List.range 6).map (fun rot =>
      center + hex_rot_elem i (distance - i) (-distance) rot))

/-- `CubeHexLayout::get_chunk_neighbors`: chunk-lattice rings `1..=distance`
around `chunk`, each ring walked from its anchor and rotated six times. -/
def CubeHexLayout.get_chunk_neighbors (l : CubeHexLayout) (chunk : CubeHexCoord)
    (distance : Int) : List CubeHexCoord :=
  let radius := l.chunk_voxel_radius
  let inc := 2 * radius + 1
  (intRangeIncl 1 distance).flatMap (fun ring =>
    (intRangeIncl 0 (ring - 1)).flatMap (fun i =>
      (List.range 6).map (fun rot =>
        chunk + hex_rot_elem (-ring * inc + i * radius) (radius * ring + ring - i * inc)
          (radius * ring + i * inc - i * radius) rot)))

/-- `CubeHexLayout::get_chunk_voxels`: the chunk's center, plus the rings
out to `chunk_voxel_radius`, each extruded over `0..=chunk_voxel_height`. -/
def CubeHexLayout.get_chunk_voxels (l : CubeHexLayout) (chunk : CubeHexCoord) :
    List ExtrudedCubeHexCoord :=
  (([chunk] ++ (intRangeIncl 1 l.chunk_voxel_radius).flatMap (fun ring =>
      l.get_ring chunk ring)).flatMap (fun base_hex =>
    (intRangeIncl 0 l.chunk_voxel_height).map (fun h =>
      ExtrudedCubeHexCoord.from_hex2d base_hex h)))

/-- The period of the hex lookup table, `3R² + 3R + 1` as computed in
`build_lookup`. -/
def periodOf (radius : Int) : Int := 3 * radius * radius + (3 * radius + 1)

/-- The half period `(period - 1) / 2` as computed in `build_lookup`. -/
def halfOf (radius : Int) : Int := (periodOf radius - 1) / 2

/-- The linear key functional: a tile maps to table key
`(z * (3R+1) - x) mod period`; `keyOf` is the unreduced integer value. -/
def keyOf (radius : Int) (v : CubeHexCoord) : Int := v.z * (3 * radius + 1) - v.x

/-- Semantic characterisation of a lookup-table entry for key `k`: the
stored coordinate is zero-sum, lies within cube-distance `R` of the
origin (sum of absolute components at most `2R`), and its own key is
congruent to `-k` modulo the period. -/
def GoodEntry (radius k : Int) (v : CubeHexCoord) : Prop :=
  v.x + v.y + v.z = 0 ∧
  ((v.x.natAbs : Int) + (v.y.natAbs : Int) + (v.z.natAbs : Int)) ≤ 2 * radius ∧
  periodOf radius ∣ (keyOf radius v + k)

/-- Segment-position invariant for the `build_lookup` inner loop: entering
iteration `offset`, the mutable bookkeeping is either still in its initial
configuration (during the apex run and on entry to the first segment), or
is positioned inside the `q`-th lower/upper segment pair. -/
def StateOK (radius o : Int) (st : BuildState) : Prop :=
  (o ≤ radius + 1 ∧ st.section_start = radius ∧ st.lower = radius + 1 ∧
    st.upper = 2 * radius ∧ st.is_lower = true)
  ∨ (∃ q r : Int, 0 ≤ q ∧ 0 ≤ r ∧ r ≤ 3 * radius ∧
      o = radius + 1 + q * (3 * radius + 1) + r ∧
      ((r ≤ radius + q ∧ st.section_start = radius + q * (3 * radius + 1) ∧
          st.lower = radius + 1 + q ∧ st.upper = 2 * radius - q ∧ st.is_lower = true)
        ∨ (radius + q < r ∧ st.section_start = 2 * radius + 1 + q * (3 * radius + 2) ∧
          st.lower = radius + 2 + q ∧ st.upper = 2 * radius - q ∧ st.is_lower = false)))

/-- Initial loop state of a `build_lookup` phase pass. -/
def pass_init (radius : Int) (table : List CubeHexCoord) : BuildState :=
  { section_start := radius
    upper := radius * 2
    lower := radius + 1
    is_lower := true
    table := table }

/-- The loop state after the first `n` iterations of a phase pass. -/
def pass_iter (radius phase period : Int) (st0 : BuildState) : Nat → BuildState
  | 0 => st0
  | Nat.succ n => build_step radius phase period (pass_iter radius phase period st0 n) (n : Int)

/-! Basis analysis of the hex chunk-neighbor enumeration.  A ring element
is `chunk + a·A + b·B` where `A, B` generate the chunk-center sublattice;
`basisVec` materialises `a·A + b·B` and `bp` lists the six rotated basis
pairs walked by the enumeration. -/

def basisVec (radius a b : Int) : CubeHexCoord :=
  ⟨-(2 * radius + 1) * a + radius * b,
    (radius + 1) * a - (2 * radius + 1) * b,
    radius * a + (radius + 1) * b⟩

def bp (ρ i : Int) (rot : Nat) : Int × Int :=
  match rot with
  | 0 => (ρ, i)
  | 1 => (ρ - i, ρ)
  | 2 => (-i, ρ - i)
  | 3 => (-ρ, -i)
  | 4 => (i - ρ, -ρ)
  | _ => (i, i - ρ)

end hex_layout

namespace gen_terrain

/-- `struct ChunkId(i64, i64)` from `crates/gen_terrain/src/voxel/layout.rs`. -/
structure ChunkId where
  x : Int
  y : Int
deriving DecidableEq, Repr

instance : Inhabited ChunkId := ⟨⟨0, 0⟩⟩

/-- `ChunkId::new`. -/
def ChunkId.new (x y : Int) : ChunkId := ⟨x, y⟩

/-- `impl Add for ChunkId`. -/
instance : Add ChunkId := ⟨fun a b => ⟨a.x + b.x, a.y + b.y⟩⟩

/-- `impl Sub for ChunkId`. -/
instance : Sub ChunkId := ⟨fun a b => ⟨a.x - b.x, a.y - b.y⟩⟩

/-- `struct VoxelId(i64, i64, i64)`. -/
structure VoxelId where
  x : Int
  y : Int
  z : Int
deriving DecidableEq, Repr

instance : Inhabited VoxelId := ⟨⟨0, 0, 0⟩⟩

/-- `impl Add for VoxelId`. -/
instance : Add VoxelId := ⟨fun a b => ⟨a.x + b.x, a.y + b.y, a.z + b.z⟩⟩

/-- `impl Sub for VoxelId`. -/
instance : Sub VoxelId := ⟨fun a b => ⟨a.x - b.x, a.y - b.y, a.z - b.z⟩⟩

/-- Continuous-space point (`Vec3`); the `f32` components are embedded as
exact rationals, which model the float values that arise at the integer
grid points relevant to the claims. -/
structure Vec3q where
  x : Rat
  y : Rat
  z : Rat
deriving DecidableEq, Repr

/-- Rust's `as i64` cast from a float: truncation toward zero. -/
def truncQ (q : Rat) : Int := if 0 ≤ q then ⌊q⌋ else -⌊-q⌋

/-- `struct CubicVoxelLayout` (square-grid layout). -/
structure CubicVoxelLayout where
  origin : ChunkId
  voxel_side_length : Rat
  chunk_voxel_length : Int
  chunk_voxel_height : Int

/-- `CubicVoxelLayout::new`: no validation, stores the fields. -/
def CubicVoxelLayout.new (origin : ChunkId) (voxel_side_length : Rat)
    (chunk_voxel_length chunk_voxel_height : Int) : CubicVoxelLayout :=
  { origin := origin
    voxel_side_length := voxel_side_length
    chunk_voxel_length := chunk_voxel_length
    chunk_voxel_height := chunk_voxel_height }

/-- `CubicVoxelLayout::chunk_voxel_full_length` = `1 + 2 * chunk_voxel_length`. -/
def CubicVoxelLayout.chunk_voxel_full_length (l : CubicVoxelLayout) : Int :=
  1 + (l.chunk_voxel_length * 2)

/-- `CubicVoxelLayout::get_center_voxel`. -/
def CubicVoxelLayout.get_center_voxel (l : CubicVoxelLayout) (chunk : ChunkId) : VoxelId :=
  ⟨chunk.x * l.chunk_voxel_full_length, 0, chunk.y * l.chunk_voxel_full_length⟩

/-- `CubicVoxelLayout::get_voxel`. -/
def CubicVoxelLayout.get_voxel (l : CubicVoxelLayout) (chunk : ChunkId) (x y z : Int) :
    VoxelId :=
  ⟨x + chunk.x * l.chunk_voxel_full_length, y, z + chunk.y * l.chunk_voxel_full_length⟩

/-- The integer 90-degree rotations `ROTATE_4X` (their `f32` matrices have
entries `0, ±1`, so the products are exact on the integers involved). -/
def rotate_4x (k : Nat) (x y : Int) : Int × Int :=
  match k with
  | 0 => (-y, x)
  | 1 => (-x, -y)
  | 2 => (y, -x)
  | _ => (x, y)

/-- `CubicVoxelLayout::get_chunk_neighbors`: rings `1..=distance`, each
walked along one edge and rotated four times. -/
def CubicVoxelLayout.get_chunk_neighbors (l : CubicVoxelLayout) (chunk : ChunkId)
    (distance : Int) : List ChunkId :=
  (intRangeIncl 1 distance).flatMap (fun ring =>
    (intRangeIncl 0 (2 * ring - 1)).flatMap (fun offset =>
      (List.range 4).map (fun k =>
        let v2 := rotate_4x k (-ring + offset) (-ring)
        chunk + ChunkId.new v2.1 v2.2)))

/-- `CubicVoxelLayout::get_chunk_voxels`. -/
def CubicVoxelLayout.get_chunk_voxels (l : CubicVoxelLayout) (chunk : ChunkId) :
    List VoxelId :=
  (intRangeIncl 0 (l.chunk_voxel_full_length - 1)).flatMap (fun x =>
    (intRangeIncl 0 (l.chunk_voxel_full_length - 1)).flatMap (fun z =>
      (intRangeIncl 0 (l.chunk_voxel_height - 1)).map (fun y =>
        l.get_voxel chunk (x - l.chunk_voxel_length) y (z - l.chunk_voxel_length))))

/-- `CubicVoxelLayout::voxel_to_chunk`: Euclidean division by the full
chunk side length. -/
def CubicVoxelLayout.voxel_to_chunk (l : CubicVoxelLayout) (voxel : VoxelId) : ChunkId :=
  ChunkId.new ((voxel.x + l.chunk_voxel_length) / l.chunk_voxel_full_length)
    ((voxel.z + l.chunk_voxel_length) / l.chunk_voxel_full_length)

/-- `CubicVoxelLayout::voxel_to_space`. -/
def CubicVoxelLayout.voxel_to_space (l : CubicVoxelLayout) (voxel : VoxelId) : Vec3q :=
  let center := l.get_center_voxel l.origin
  let transposed := voxel - center
  ⟨(transposed.x : Rat) * l.voxel_side_length, (transposed.y : Rat) * l.voxel_side_length,
    (transposed.z : Rat) * l.voxel_side_length⟩

/-- `CubicVoxelLayout::chunk_to_space`. -/
def CubicVoxelLayout.chunk_to_space (l : CubicVoxelLayout) (chunk : ChunkId) : Vec3q :=
  l.voxel_to_space (l.get_center_voxel chunk)

/-- `CubicVoxelLayout::space_to_voxel`: each coordinate is first cast to an
integer (truncation toward zero), then divided with `div_euclid`; note the
`y` coordinate is divided by `chunk_voxel_height`. -/
def CubicVoxelLayout.space_to_voxel (l : CubicVoxelLayout) (space : Vec3q) : VoxelId :=
  let center := l.get_center_voxel l.origin
  let divisor := truncQ l.voxel_side_length
  let x := (truncQ space.x) / divisor
  let y := (truncQ space.y) / l.chunk_voxel_height
  let z := (truncQ space.z) / divisor
  (⟨x, y, z⟩ : VoxelId) + center

/-- `CubicVoxelLayout::space_to_chunk`. -/
def CubicVoxelLayout.space_to_chunk (l : CubicVoxelLayout) (space : Vec3q) : ChunkId :=
  l.voxel_to_chunk (l.space_to_voxel space)

/-- `ChunkTracker` from `crates/gen_terrain/src/voxel/tracker.rs`: the set
of loaded chunk ids (`HashSet` embedded as `Finset`). -/
structure ChunkTracker where
  loaded_chunks : Finset ChunkId

/-- `ChunkTracker::try_spawn`: inserts and reports whether the chunk was
absent before the call. -/
def ChunkTracker.try_spawn (t : ChunkTracker) (chunk : ChunkId) : ChunkTracker × Bool :=
  if chunk ∉ t.loaded_chunks then
    ({ loaded_chunks := insert chunk t.loaded_chunks }, true)
  else
    (t, false)

/-- `ChunkTracker::try_despawn`: removes and reports whether the chunk was
present. -/
def ChunkTracker.try_despawn (t : ChunkTracker) (chunk : ChunkId) : ChunkTracker × Bool :=
  ({ loaded_chunks := t.loaded_chunks.erase chunk }, decide (chunk ∈ t.loaded_chunks))

/-- The four rotated square-ring coordinate pairs walked by
`get_chunk_neighbors` for ring `ρ` at edge offset `j`. -/
def bp2 (ρ j : Int) (rot : Nat) : Int × Int :=
  match rot with
  | 0 => (ρ, -ρ + j)
  | 1 => (ρ - j, ρ)
  | 2 => (-ρ, ρ - j)
  | _ => (-ρ + j, -ρ)

/-- `ChunkSpawner` (the "site"): last resolved chunk and the fresh flag. -/
structure ChunkSpawner where
  last_loaded_chunk : Option ChunkId
  fresh : Bool
deriving DecidableEq, Repr

/-- `Chunk` record: id and distance to the nearest spawner (`f32` as `Rat`). -/
structure Chunk where
  id : ChunkId
  distance_to_nearest_spawner : Rat
deriving DecidableEq, Repr

/-- `f32::MAX` exactly: `(2 - 2⁻²³) · 2¹²⁷ = 2¹²⁸ - 2¹⁰⁴`. -/
def f32_max : Rat := 340282346638528859811704183484516925440

/-- The `calc_chunk_distances` system from `crates/gen_terrain/src/voxel/mod.rs`,
parameterised by the layout's distance metric (whose `f32` values are
modelled as rationals; the pass is uniform in the metric).  The ECS
mutation is translated as follows: `fresh_sites` is collected by `filter`
before any flag is cleared, so every chunk's minimum ranges over all
originally-fresh sites; the flags are cleared inside the per-chunk loop,
hence they are cleared exactly when at least one chunk record exists; a
fresh site whose `last_loaded_chunk` is `None` hits the `expect` panic,
modelled as `none` (and is only reachable when the chunk loop runs). -/
def calc_chunk_distances (dist : ChunkId → ChunkId → Rat) (chunks : List Chunk)
    (sites : List ChunkSpawner) : Option (List Chunk × List ChunkSpawner) :=
  let fresh_sites := sites.filter (fun s => s.fresh)
  if fresh_sites.length = 0 then some (chunks, sites)
  else if chunks.isEmpty then some (chunks, sites)
  else
    match fresh_sites.mapM (fun s => s.last_loaded_chunk) with
    | none => none
    | some anchors =>
      some (chunks.map (fun ch =>
          { ch with distance_to_nearest_spawner :=
              anchors.foldl (fun acc c => min (dist ch.id c) acc) f32_max }),
        sites.map (fun s => { s with fresh := false }))

end gen_terrain

namespace terrain_hex

/-- `struct CubeHexCoord(pub i32, pub i32, pub i32)` from `src/terrain/hex.rs`
(the older module). -/
structure CubeHexCoord where
  x : Int
  y : Int
  z : Int
deriving DecidableEq, Repr

/-- `impl Add for CubeHexCoord` in `src/terrain/hex.rs`: note the third
component is computed as `self.2 + self.2`, exactly as in the source. -/
instance : Add CubeHexCoord :=
  ⟨fun a b => ⟨a.x + b.x, a.y + b.y, a.z + a.z⟩⟩

end terrain_hex

/-! Generic list helpers used by the verification below. -/

theorem intRangeIncl_succ (a b : Int) (h : a ≤ b + 1) :
    intRangeIncl a (b + 1) = intRangeIncl a b ++ [b + 1] := by
  unfold intRangeIncl
  have h1 : (b + 1 + 1 - a).toNat = (b + 1 - a).toNat + 1 := by omega
  rw [h1, List.range_succ, List.map_append]
  simp only [List.map_cons, List.map_nil]
  congr 2
  omega

theorem mem_intRangeIncl {a b x : Int} : x ∈ intRangeIncl a b ↔ a ≤ x ∧ x ≤ b := by
  unfold intRangeIncl
  simp only [List.mem_map, List.mem_range]
  constructor
  · rintro ⟨n, hn, rfl⟩
    omega
  · rintro ⟨h1, h2⟩
    exact ⟨(x - a).toNat, by omega, by omega⟩

theorem intRangeIncl_nodup (a b : Int) : (intRangeIncl a b).Nodup := by
  unfold intRangeIncl
  exact (List.nodup_range _).map (fun m n h => by omega)

theorem length_intRangeIncl (a b : Int) : (intRangeIncl a b).length = (b + 1 - a).toNat := by
  unfold intRangeIncl
  simp

theorem getD_set_ne {α : Type} [Inhabited α] (l : List α) (i k : Nat) (hik : i ≠ k) (a : α) :
    (l.set i a).getD k default = l.getD k default := by
  simp [List.getD_eq_getElem?_getD, List.getElem?_set, hik]

theorem getD_set_self {α : Type} [Inhabited α] (l : List α) (i : Nat) (hi : i < l.length)
    (a : α) : (l.set i a).getD i default = a := by
  simp [List.getD_eq_getElem?_getD, List.getElem?_set, hi]

namespace gen_terrain

theorem ChunkId.add_xy (a b : ChunkId) : a + b = ⟨a.x + b.x, a.y + b.y⟩ := rfl

theorem VoxelId.add_xyz (a b : VoxelId) : a + b = ⟨a.x + b.x, a.y + b.y, a.z + b.z⟩ := rfl

theorem VoxelId.sub_xyz (a b : VoxelId) : a - b = ⟨a.x - b.x, a.y - b.y, a.z - b.z⟩ := rfl

end gen_terrain

namespace terrain_hex

theorem add_dup_z (a b : CubeHexCoord) : a + b = ⟨a.x + b.x, a.y + b.y, a.z + a.z⟩ := rfl

end terrain_hex

namespace hex_layout

/-! Arithmetic facts about the lookup-table construction. -/

theorem two_mul_halfOf (radius : Int) (h : 0 ≤ radius) :
    2 * halfOf radius = 3 * radius * radius + 3 * radius := by
  have he : Even (radius * (radius + 1)) := Int.even_mul_succ_self radius
  obtain ⟨m, hm⟩ := he
  have h1 : periodOf radius - 1 = 2 * (3 * m) := by
    unfold periodOf
    have : radius * (radius + 1) = m + m := hm
    nlinarith [this]
  unfold halfOf
  rw [h1]
  rw [Int.mul_ediv_cancel_left _ (by norm_num)]
  nlinarith [hm]

theorem halfOf_nonneg (radius : Int) (h : 0 ≤ radius) : 0 ≤ halfOf radius := by
  have h2 := two_mul_halfOf radius h
  nlinarith

theorem halfOf_lt_periodOf (radius : Int) (h : 0 ≤ radius) :
    halfOf radius < periodOf radius := by
  have h2 := two_mul_halfOf radius h
  have hp : periodOf radius = 3 * radius * radius + 3 * radius + 1 := by unfold periodOf; ring
  nlinarith

theorem periodOf_pos (radius : Int) : 0 < periodOf radius := by
  unfold periodOf
  nlinarith [sq_nonneg (2 * radius + 1)]

/-- Inside a segment, the pair index `q` is small: `2q + 1 ≤ R`. -/
theorem seg_q_bound {radius q r o : Int} (hR : 1 ≤ radius) (hq : 0 ≤ q) (hr : 0 ≤ r)
    (ho : o = radius + 1 + q * (3 * radius + 1) + r) (hhalf : o ≤ halfOf radius) :
    2 * q + 1 ≤ radius := by
  have h2 := two_mul_halfOf radius (by omega)
  by_contra hcon
  push_neg at hcon
  have hrq : radius ≤ 2 * q := by omega
  have hmul : radius * (3 * radius + 1) ≤ (2 * q) * (3 * radius + 1) :=
    mul_le_mul_of_nonneg_right hrq (by omega)
  have e1 : (2 * q) * (3 * radius + 1) = 2 * (q * (3 * radius + 1)) := by ring
  have e2 : radius * (3 * radius + 1) = 3 * radius * radius + radius := by ring
  omega

theorem build_step_table (radius phase period : Int) (st : BuildState) (offset : Int) :
    (build_step radius phase period st offset).table =
      st.table.set (if phase = 1 then offset else period - offset).toNat
        (build_entry radius phase st offset) := by
  simp only [build_step, build_entry]
  split_ifs <;> rfl

theorem build_step_fields_apex {radius phase period : Int} {st : BuildState} {offset : Int}
    (h : offset ≤ radius) :
    (build_step radius phase period st offset).section_start = st.section_start ∧
    (build_step radius phase period st offset).upper = st.upper ∧
    (build_step radius phase period st offset).lower = st.lower ∧
    (build_step radius phase period st offset).is_lower = st.is_lower := by
  simp [build_step, h]

theorem build_step_fields_cont {radius phase period : Int} {st : BuildState} {offset : Int}
    (h1 : ¬ offset ≤ radius)
    (h2 : ¬ (offset - st.section_start + 1 > if st.is_lower then st.lower else st.upper)) :
    (build_step radius phase period st offset).section_start = st.section_start ∧
    (build_step radius phase period st offset).upper = st.upper ∧
    (build_step radius phase period st offset).lower = st.lower ∧
    (build_step radius phase period st offset).is_lower = st.is_lower := by
  simp [build_step, h1, h2]

theorem build_step_fields_tog {radius phase period : Int} {st : BuildState} {offset : Int}
    (h1 : ¬ offset ≤ radius)
    (h2 : offset - st.section_start + 1 > if st.is_lower then st.lower else st.upper) :
    (build_step radius phase period st offset).section_start = offset ∧
    (build_step radius phase period st offset).upper =
      (if st.is_lower then st.upper else st.upper - 1) ∧
    (build_step radius phase period st offset).lower =
      (if st.is_lower then st.lower + 1 else st.lower) ∧
    (build_step radius phase period st offset).is_lower = !st.is_lower := by
  simp [build_step, h1, h2]

theorem build_entry_apex {radius phase : Int} {st : BuildState} {offset : Int}
    (h : offset ≤ radius) :
    build_entry radius phase st offset = CubeHexCoord.from_xz (offset * phase) 0 := by
  simp [build_entry, h]

theorem build_entry_seg_lower {radius phase : Int} {st : BuildState} {offset : Int}
    (h1 : ¬ offset ≤ radius) (h2 : st.is_lower = true) :
    build_entry radius phase st offset =
      CubeHexCoord.from_xz ((offset - st.section_start - (radius + 1)) * phase)
        (((radius + radius + 1) - st.lower) * phase) := by
  simp [build_entry, h1, h2, mul_one]

theorem build_entry_seg_upper {radius phase : Int} {st : BuildState} {offset : Int}
    (h1 : ¬ offset ≤ radius) (h2 : st.is_lower = false) :
    build_entry radius phase st offset =
      CubeHexCoord.from_xz ((offset - st.section_start - (st.upper - radius)) * phase)
        (((radius + radius + 1) - st.upper) * phase * (-1)) := by
  simp [build_entry, h1, h2]

theorem StateOK_seg {radius o : Int} (hR : 1 ≤ radius) {st : BuildState}
    (hst : StateOK radius o st) (hoR : ¬ o ≤ radius) :
    ∃ q r : Int, 0 ≤ q ∧ 0 ≤ r ∧ r ≤ 3 * radius ∧
      o = radius + 1 + q * (3 * radius + 1) + r ∧
      ((r ≤ radius + q ∧ st.section_start = radius + q * (3 * radius + 1) ∧
          st.lower = radius + 1 + q ∧ st.upper = 2 * radius - q ∧ st.is_lower = true)
        ∨ (radius + q < r ∧ st.section_start = 2 * radius + 1 + q * (3 * radius + 2) ∧
          st.lower = radius + 2 + q ∧ st.upper = 2 * radius - q ∧ st.is_lower = false)) := by
  rcases hst with ⟨hle, hss, hlo, hup, hil⟩ | h
  · refine ⟨0, 0, le_refl 0, le_refl 0, by omega, by omega, Or.inl ⟨by omega, ?_, by omega, by omega, hil⟩⟩
    rw [hss]; ring
  · exact h

theorem step_entry_good {radius o : Int} (hR : 1 ≤ radius) {st : BuildState} (h0 : 0 ≤ o)
    (hH : o ≤ halfOf radius) (hst : StateOK radius o st) :
    GoodEntry radius o (build_entry radius 1 st o) := by
  by_cases hoR : o ≤ radius
  · rw [build_entry_apex hoR]
    refine ⟨by simp [CubeHexCoord.from_xz]; try ring, ?_, ?_⟩
    · simp only [CubeHexCoord.from_xz, mul_one]
      omega
    · simp only [CubeHexCoord.from_xz, keyOf, mul_one]
      have : (0 : Int) * (3 * radius + 1) - o + o = 0 := by ring
      rw [this]
      exact dvd_zero _
  · obtain ⟨q, r, hq, hr, hr3, ho, hcase⟩ := StateOK_seg hR hst hoR
    have hqb := seg_q_bound hR hq hr ho hH
    have hprod : 0 ≤ q * (3 * radius + 1) := mul_nonneg hq (by omega)
    rcases hcase with ⟨hrb, hss, hlo, hup, hil⟩ | ⟨hrb, hss, hlo, hup, hil⟩
    · rw [build_entry_seg_lower hoR hil, hss, hlo]
      have ha : (o - (radius + q * (3 * radius + 1)) - (radius + 1)) * 1 = r - radius := by
        have := ho; omega
      have hb : (radius + radius + 1 - (radius + 1 + q)) * 1 = radius - q := by omega
      rw [ha, hb]
      refine ⟨by simp [CubeHexCoord.from_xz]; try ring, ?_, ?_⟩
      · simp only [CubeHexCoord.from_xz]
        omega
      · simp only [CubeHexCoord.from_xz, keyOf]
        have hkey : (radius - q) * (3 * radius + 1) - (r - radius) + o = periodOf radius := by
          rw [ho]; unfold periodOf; ring
        rw [hkey]
    · rw [build_entry_seg_upper hoR hil, hss, hup]
      have hq2 : q * (3 * radius + 2) = q * (3 * radius + 1) + q := by ring
      have ha : (o - (2 * radius + 1 + q * (3 * radius + 2)) - (2 * radius - q - radius)) * 1 =
          r - 2 * radius := by omega
      have hb : (radius + radius + 1 - (2 * radius - q)) * 1 * (-1) = -(q + 1) := by omega
      rw [ha, hb]
      refine ⟨by simp [CubeHexCoord.from_xz]; try ring, ?_, ?_⟩
      · simp only [CubeHexCoord.from_xz]
        omega
      · simp only [CubeHexCoord.from_xz, keyOf]
        have hkey : -(q + 1) * (3 * radius + 1) - (r - 2 * radius) + o = 0 := by
          rw [ho]; ring
        rw [hkey]
        exact dvd_zero _

theorem step_state_ok {radius o : Int} (hR : 1 ≤ radius) {st : BuildState}
    (phase period : Int) (h0 : 0 ≤ o) (hH : o ≤ halfOf radius) (hst : StateOK radius o st) :
    StateOK radius (o + 1) (build_step radius phase period st o) := by
  by_cases hoR : o ≤ radius
  · -- apex iteration: state untouched, still in the initial configuration
    obtain ⟨e1, e2, e3, e4⟩ := @build_step_fields_apex radius phase period st o hoR
    rcases hst with ⟨hle, hss, hlo, hup, hil⟩ | ⟨q, r, hq, hr, hr3, ho, hcase⟩
    · exact Or.inl ⟨by omega, by rw [e1, hss], by rw [e3, hlo], by rw [e2, hup], by rw [e4, hil]⟩
    · exfalso
      have : 0 ≤ q * (3 * radius + 1) := mul_nonneg hq (by omega)
      omega
  · obtain ⟨q, r, hq, hr, hr3, ho, hcase⟩ := StateOK_seg hR hst hoR
    have hqb := seg_q_bound hR hq hr ho hH
    have hprod : 0 ≤ q * (3 * radius + 1) := mul_nonneg hq (by omega)
    have hq2 : q * (3 * radius + 2) = q * (3 * radius + 1) + q := by ring
    rcases hcase with ⟨hrb, hss, hlo, hup, hil⟩ | ⟨hrb, hss, hlo, hup, hil⟩
    · -- inside lower segment `q`
      by_cases htog : r = radius + q
      · -- segment boundary: toggle to the upper segment of the same pair
        have htest : o - st.section_start + 1 > (if st.is_lower then st.lower else st.upper) := by
          rw [hil, hss, hlo]
          simp only [if_true]
          omega
        obtain ⟨e1, e2, e3, e4⟩ := @build_step_fields_tog radius phase period st o hoR htest
        refine Or.inr ⟨q, radius + q + 1, hq, by omega, by omega, by omega,
          Or.inr ⟨by omega, ?_, ?_, ?_, ?_⟩⟩
        · rw [e1]; omega
        · rw [e3, hil]; simp only [if_true]; omega
        · rw [e2, hil]; simp only [if_true]; omega
        · rw [e4, hil]; rfl
      · -- interior of the lower segment: state unchanged
        have htest : ¬ (o - st.section_start + 1 > (if st.is_lower then st.lower else st.upper)) := by
          rw [hil, hss, hlo]
          simp only [if_true]
          omega
        obtain ⟨e1, e2, e3, e4⟩ := @build_step_fields_cont radius phase period st o hoR htest
        refine Or.inr ⟨q, r + 1, hq, by omega, by omega, by omega,
          Or.inl ⟨by omega, ?_, ?_, ?_, ?_⟩⟩
        · rw [e1, hss]
        · rw [e3, hlo]
        · rw [e2, hup]
        · rw [e4, hil]
    · -- inside upper segment `q`
      by_cases htog : r = 3 * radius
      · -- segment boundary: toggle to the lower segment of pair `q + 1`
        have htest : o - st.section_start + 1 > (if st.is_lower then st.lower else st.upper) := by
          rw [hil, hss, hup]
          simp only [if_false, Bool.false_eq_true]
          omega
        obtain ⟨e1, e2, e3, e4⟩ := @build_step_fields_tog radius phase period st o hoR htest
        have hq3 : (q + 1) * (3 * radius + 1) = q * (3 * radius + 1) + 3 * radius + 1 := by ring
        refine Or.inr ⟨q + 1, 0, by omega, le_refl 0, by omega, by omega,
          Or.inl ⟨by omega, ?_, ?_, ?_, ?_⟩⟩
        · rw [e1]; omega
        · rw [e3, hil]; simp only [Bool.false_eq_true, if_false]; omega
        · rw [e2, hil]; simp only [Bool.false_eq_true, if_false]; omega
        · rw [e4, hil]; rfl
      · -- interior of the upper segment: state unchanged
        have htest : ¬ (o - st.section_start + 1 > (if st.is_lower then st.lower else st.upper)) := by
          rw [hil, hss, hup]
          simp only [if_false, Bool.false_eq_true]
          omega
        obtain ⟨e1, e2, e3, e4⟩ := @build_step_fields_cont radius phase period st o hoR htest
        refine Or.inr ⟨q, r + 1, hq, by omega, by omega, by omega,
          Or.inr ⟨by omega, ?_, ?_, ?_, ?_⟩⟩
        · rw [e1, hss]
        · rw [e3, hlo]
        · rw [e2, hup]
        · rw [e4, hil]

theorem CubeHexCoord.neg_def (v : CubeHexCoord) : -v = ⟨-v.x, -v.y, -v.z⟩ := rfl

theorem CubeHexCoord.add_def (a b : CubeHexCoord) : a + b = ⟨a.x + b.x, a.y + b.y, a.z + b.z⟩ :=
  rfl

theorem CubeHexCoord.sub_def (a b : CubeHexCoord) : a - b = ⟨a.x - b.x, a.y - b.y, a.z - b.z⟩ :=
  rfl

theorem build_entry_neg (radius : Int) (st : BuildState) (o : Int) :
    build_entry radius (-1) st o = -(build_entry radius 1 st o) := by
  by_cases h : o ≤ radius
  · rw [build_entry_apex h, build_entry_apex h]
    simp only [CubeHexCoord.from_xz, CubeHexCoord.neg_def, CubeHexCoord.mk.injEq]
    refine ⟨by ring, by ring, by ring⟩
  · cases hil : st.is_lower
    · rw [build_entry_seg_upper h hil, build_entry_seg_upper h hil]
      simp only [CubeHexCoord.from_xz, CubeHexCoord.neg_def, CubeHexCoord.mk.injEq]
      refine ⟨by ring, by ring, by ring⟩
    · rw [build_entry_seg_lower h hil, build_entry_seg_lower h hil]
      simp only [CubeHexCoord.from_xz, CubeHexCoord.neg_def, CubeHexCoord.mk.injEq]
      refine ⟨by ring, by ring, by ring⟩

theorem GoodEntry_neg {radius k : Int} {v : CubeHexCoord} (h : GoodEntry radius k v) :
    GoodEntry radius (periodOf radius - k) (-v) := by
  obtain ⟨h1, h2, h3⟩ := h
  refine ⟨?_, ?_, ?_⟩
  · simp only [CubeHexCoord.neg_def]; omega
  · simp only [CubeHexCoord.neg_def, Int.natAbs_neg]; omega
  · have he : keyOf radius (-v) + (periodOf radius - k) =
        periodOf radius - (keyOf radius v + k) := by
      simp only [keyOf, CubeHexCoord.neg_def]; ring
    rw [he]
    exact dvd_sub (dvd_refl _) h3

theorem foldl_intRangeIncl_eq (radius phase period : Int) (st0 : BuildState) (n : Nat) :
    List.foldl (build_step radius phase period) st0 (intRangeIncl 0 ((n : Int) - 1)) =
      pass_iter radius phase period st0 n := by
  induction n with
  | zero => simp [intRangeIncl, pass_iter]
  | succ n ih =>
    have h1 : ((n + 1 : Nat) : Int) - 1 = ((n : Int) - 1) + 1 := by push_cast; ring
    rw [h1, intRangeIncl_succ 0 ((n : Int) - 1) (by omega), List.foldl_append]
    have h2 : (n : Int) - 1 + 1 = (n : Int) := by ring
    simp only [List.foldl_cons, List.foldl_nil, ih, h2]
    rfl

theorem build_pass_eq_iter (radius phase period half_period : Int) (table : List CubeHexCoord)
    (hh : 0 ≤ half_period) :
    build_pass radius phase period half_period table =
      (pass_iter radius phase period (pass_init radius table) (half_period + 1).toNat).table := by
  unfold build_pass pass_init
  congr 1
  have h1 : ((half_period + 1).toNat : Int) - 1 = half_period := by omega
  rw [← foldl_intRangeIncl_eq radius phase period _ (half_period + 1).toNat, h1]

theorem pass1_inv (radius : Int) (hR : 1 ≤ radius) (t0 : List CubeHexCoord)
    (hlen : t0.length = (periodOf radius + 1).toNat) (n : Nat)
    (hn : (n : Int) ≤ halfOf radius + 1) :
    StateOK radius (n : Int) (pass_iter radius 1 (periodOf radius) (pass_init radius t0) n) ∧
    (pass_iter radius 1 (periodOf radius) (pass_init radius t0) n).table.length =
      (periodOf radius + 1).toNat ∧
    (∀ k : Nat, (k : Int) < (n : Int) →
      GoodEntry radius k
        ((pass_iter radius 1 (periodOf radius) (pass_init radius t0) n).table.getD k default)) := by
  induction n with
  | zero =>
    refine ⟨Or.inl ⟨by omega, rfl, rfl, by show radius * 2 = 2 * radius; ring, rfl⟩, hlen, ?_⟩
    intro k hk
    omega
  | succ n ih =>
    have hn' : (n : Int) ≤ halfOf radius + 1 := by push_cast at hn ⊢; omega
    have hnh : (n : Int) ≤ halfOf radius := by push_cast at hn ⊢; omega
    obtain ⟨hst, hlen', hgood⟩ := ih hn'
    refine ⟨?_, ?_, ?_⟩
    · have hcast : ((n + 1 : Nat) : Int) = (n : Int) + 1 := by push_cast; ring
      rw [hcast]
      exact step_state_ok hR 1 (periodOf radius) (Int.natCast_nonneg n) hnh hst
    · show (build_step radius 1 (periodOf radius) _ (n : Int)).table.length = _
      rw [build_step_table, List.length_set]
      exact hlen'
    · intro k hk
      show GoodEntry radius k
        ((build_step radius 1 (periodOf radius) _ (n : Int)).table.getD k default)
      rw [build_step_table, if_pos rfl]
      by_cases hkn : k = n
      · subst hkn
        rw [Int.toNat_natCast, getD_set_self]
        · exact step_entry_good hR (Int.natCast_nonneg k) hnh hst
        · have hplt := halfOf_lt_periodOf radius (by omega)
          rw [hlen']
          omega
      · rw [Int.toNat_natCast, getD_set_ne]
        · refine hgood k ?_
          push_cast at hk ⊢
          omega
        · omega

theorem pass2_inv (radius : Int) (hR : 1 ≤ radius) (t1 : List CubeHexCoord)
    (hlen : t1.length = (periodOf radius + 1).toNat)
    (hg1 : ∀ k : Nat, (k : Int) ≤ halfOf radius → GoodEntry radius k (t1.getD k default))
    (n : Nat) (hn : (n : Int) ≤ halfOf radius + 1) :
    StateOK radius (n : Int) (pass_iter radius (-1) (periodOf radius) (pass_init radius t1) n) ∧
    (pass_iter radius (-1) (periodOf radius) (pass_init radius t1) n).table.length =
      (periodOf radius + 1).toNat ∧
    (∀ k : Nat, (k : Int) ≤ halfOf radius →
      GoodEntry radius k
        ((pass_iter radius (-1) (periodOf radius) (pass_init radius t1) n).table.getD k default)) ∧
    (∀ k : Nat, periodOf radius - (n : Int) < (k : Int) → (k : Int) ≤ periodOf radius →
      GoodEntry radius k
        ((pass_iter radius (-1) (periodOf radius) (pass_init radius t1) n).table.getD k default)) := by
  have hph : periodOf radius = 2 * halfOf radius + 1 := by
    have h2 := two_mul_halfOf radius (by omega)
    unfold periodOf at *
    omega
  induction n with
  | zero =>
    refine ⟨Or.inl ⟨by omega, rfl, rfl, by show radius * 2 = 2 * radius; ring, rfl⟩, hlen,
      fun k hk => hg1 k hk, ?_⟩
    intro k hk1 hk2
    omega
  | succ n ih =>
    have hn' : (n : Int) ≤ halfOf radius + 1 := by push_cast at hn ⊢; omega
    have hnh : (n : Int) ≤ halfOf radius := by push_cast at hn ⊢; omega
    obtain ⟨hst, hlen', hgood, hhigh⟩ := ih hn'
    have hkey : (if (-1 : Int) = 1 then (n : Int) else periodOf radius - (n : Int)) =
        periodOf radius - (n : Int) := by norm_num
    refine ⟨?_, ?_, ?_, ?_⟩
    · have hcast : ((n + 1 : Nat) : Int) = (n : Int) + 1 := by push_cast; ring
      rw [hcast]
      exact step_state_ok hR (-1) (periodOf radius) (Int.natCast_nonneg n) hnh hst
    · show (build_step radius (-1) (periodOf radius) _ (n : Int)).table.length = _
      rw [build_step_table, List.length_set]
      exact hlen'
    · intro k hk
      show GoodEntry radius k
        ((build_step radius (-1) (periodOf radius) _ (n : Int)).table.getD k default)
      rw [build_step_table, hkey, getD_set_ne]
      · exact hgood k hk
      · omega
    · intro k hk1 hk2
      show GoodEntry radius k
        ((build_step radius (-1) (periodOf radius) _ (n : Int)).table.getD k default)
      rw [build_step_table, hkey]
      by_cases hkn : (k : Int) = periodOf radius - (n : Int)
      · have hidx : (periodOf radius - (n : Int)).toNat = k := by omega
        rw [hidx, getD_set_self]
        · have hgn := step_entry_good hR (Int.natCast_nonneg n) hnh hst
          have := GoodEntry_neg hgn
          rw [← build_entry_neg] at this
          have hc : periodOf radius - (n : Int) = (k : Int) := by omega
          rw [hc] at this
          exact this
        · rw [hlen']
          omega
      · rw [getD_set_ne]
        · refine hhigh k ?_ hk2
          push_cast at hk1 ⊢
          omega
        · omega

theorem build_lookup_eq (radius : Int) :
    build_lookup radius =
      (periodOf radius,
        build_pass radius (-1) (periodOf radius) (halfOf radius)
          (build_pass radius 1 (periodOf radius) (halfOf radius)
            (List.replicate (periodOf radius + 1).toNat default))) := rfl

theorem build_lookup_length (radius : Int) (hR : 1 ≤ radius) :
    (build_lookup radius).2.length = (periodOf radius + 1).toNat := by
  have hh : (0 : Int) ≤ halfOf radius := halfOf_nonneg radius (by omega)
  have hp1 := pass1_inv radius hR (List.replicate (periodOf radius + 1).toNat default)
    (by simp) (halfOf radius + 1).toNat (by omega)
  have hg1 : ∀ k : Nat, (k : Int) ≤ halfOf radius →
      GoodEntry radius k
        ((pass_iter radius 1 (periodOf radius)
          (pass_init radius (List.replicate (periodOf radius + 1).toNat default))
          (halfOf radius + 1).toNat).table.getD k default) := by
    intro k hk
    refine hp1.2.2 k ?_
    omega
  have hp2 := pass2_inv radius hR _ hp1.2.1 hg1 (halfOf radius + 1).toNat (by omega)
  rw [build_lookup_eq]
  show (build_pass radius (-1) (periodOf radius) (halfOf radius)
    (build_pass radius 1 (periodOf radius) (halfOf radius)
      (List.replicate (periodOf radius + 1).toNat default))).length = _
  rw [build_pass_eq_iter _ _ _ _ _ hh, build_pass_eq_iter _ _ _ _ _ hh]
  exact hp2.2.1

theorem build_lookup_good (radius : Int) (hR : 1 ≤ radius) (k : Nat)
    (hk : (k : Int) ≤ periodOf radius) :
    GoodEntry radius k ((build_lookup radius).2.getD k default) := by
  have hh : (0 : Int) ≤ halfOf radius := halfOf_nonneg radius (by omega)
  have hph : periodOf radius = 2 * halfOf radius + 1 := by
    have h2 := two_mul_halfOf radius (by omega)
    unfold periodOf at *
    omega
  have hp1 := pass1_inv radius hR (List.replicate (periodOf radius + 1).toNat default)
    (by simp) (halfOf radius + 1).toNat (by omega)
  have hg1 : ∀ j : Nat, (j : Int) ≤ halfOf radius →
      GoodEntry radius j
        ((pass_iter radius 1 (periodOf radius)
          (pass_init radius (List.replicate (periodOf radius + 1).toNat default))
          (halfOf radius + 1).toNat).table.getD j default) := by
    intro j hj
    refine hp1.2.2 j ?_
    omega
  have hp2 := pass2_inv radius hR _ hp1.2.1 hg1 (halfOf radius + 1).toNat (by omega)
  rw [build_lookup_eq]
  show GoodEntry radius k
    ((build_pass radius (-1) (periodOf radius) (halfOf radius)
      (build_pass radius 1 (periodOf radius) (halfOf radius)
        (List.replicate (periodOf radius + 1).toNat default))).getD k default)
  rw [build_pass_eq_iter _ _ _ _ _ hh, build_pass_eq_iter _ _ _ _ _ hh]
  by_cases hkh : (k : Int) ≤ halfOf radius
  · exact hp2.2.2.1 k hkh
  · refine hp2.2.2.2 k ?_ hk
    have hcast : (((halfOf radius + 1).toNat : Nat) : Int) = halfOf radius + 1 := by omega
    rw [hcast]
    omega

theorem tmod_neg_dividend (a b : Int) : Int.tmod (-a) b = -Int.tmod a b := by
  rcases a with m | m
  · rcases m with _ | m
    · rcases b with n | n <;> simp [Int.tmod]
    · rcases b with n | n
      · show Int.tmod (-(Int.ofNat (m + 1))) (Int.ofNat n) = _
        rw [show -(Int.ofNat (m + 1)) = Int.negSucc m from rfl]
        simp [Int.tmod]
      · show Int.tmod (-(Int.ofNat (m + 1))) (Int.negSucc n) = _
        rw [show -(Int.ofNat (m + 1)) = Int.negSucc m from rfl]
        simp [Int.tmod]
  · rcases b with n | n
    · show Int.tmod (-(Int.negSucc m)) (Int.ofNat n) = _
      rw [show -(Int.negSucc m) = Int.ofNat (m + 1) from rfl]
      simp [Int.tmod]
    · show Int.tmod (-(Int.negSucc m)) (Int.negSucc n) = _
      rw [show -(Int.negSucc m) = Int.ofNat (m + 1) from rfl]
      simp [Int.tmod]

theorem tmod_bounds (a P : Int) (hP : 0 < P) : -P < Int.tmod a P ∧ Int.tmod a P < P := by
  rcases le_or_lt 0 a with h | h
  · have h1 := Int.tmod_nonneg P h
    have h2 := Int.tmod_lt_of_pos a hP
    omega
  · have hneg : (0 : Int) ≤ -a := by omega
    have h1 := Int.tmod_nonneg P hneg
    have h2 := Int.tmod_lt_of_pos (-a) hP
    rw [tmod_neg_dividend] at h1 h2
    omega

theorem tmod_congr (a P : Int) : P ∣ (a - Int.tmod a P) := by
  have h := Int.tmod_add_tdiv a P
  exact ⟨a.tdiv P, by omega⟩

theorem emod_unique (c e P : Int) (hP : 0 < P) (h0 : 0 ≤ e) (h1 : e < P)
    (hc : P ∣ (c - e)) : c % P = e := by
  obtain ⟨d, hd⟩ := hc
  have hce : c = e + P * d := by omega
  rw [hce, Int.add_mul_emod_self_left]
  exact Int.emod_eq_of_lt h0 h1

/-- The `x_closest`/`x_upper` normalisation of `voxel_to_chunk`: the Rust
truncated remainders followed by the conditional `+ period` amount to the
Euclidean remainder. -/
theorem tmod_norm_eq (P a x : Int) (hP : 0 < P) :
    (if Int.tmod (Int.tmod a P - x) P < 0 then Int.tmod (Int.tmod a P - x) P + P
     else Int.tmod (Int.tmod a P - x) P) = (a - x) % P := by
  have hb2 := tmod_bounds (Int.tmod a P - x) P hP
  have hcong1 : P ∣ (a - Int.tmod a P) := tmod_congr a P
  have hcong2 : P ∣ ((Int.tmod a P - x) - Int.tmod (Int.tmod a P - x) P) :=
    tmod_congr (Int.tmod a P - x) P
  split_ifs with hneg
  · symm
    refine emod_unique _ _ _ hP (by omega) (by omega) ?_
    have he : (a - x) - (Int.tmod (Int.tmod a P - x) P + P) =
        (a - Int.tmod a P) + ((Int.tmod a P - x) - Int.tmod (Int.tmod a P - x) P) - P := by
      ring
    rw [he]
    exact dvd_sub (dvd_add hcong1 hcong2) (dvd_refl P)
  · symm
    refine emod_unique _ _ _ hP (by omega) (by omega) ?_
    have he : (a - x) - Int.tmod (Int.tmod a P - x) P =
        (a - Int.tmod a P) + ((Int.tmod a P - x) - Int.tmod (Int.tmod a P - x) P) := by
      ring
    rw [he]
    exact dvd_add hcong1 hcong2

theorem lookup_key_spec (l : CubeHexLayout) (hP : 0 < l.chunk_voxel_period)
    (v : ExtrudedCubeHexCoord) :
    l.lookup_key v = (v.z * (3 * l.chunk_voxel_radius + 1) - v.x) % l.chunk_voxel_period :=
  tmod_norm_eq l.chunk_voxel_period (v.z * (3 * l.chunk_voxel_radius + 1)) v.x hP

theorem lookup_key_range (l : CubeHexLayout) (hP : 0 < l.chunk_voxel_period)
    (v : ExtrudedCubeHexCoord) :
    0 ≤ l.lookup_key v ∧ l.lookup_key v < l.chunk_voxel_period := by
  rw [lookup_key_spec l hP v]
  exact ⟨Int.emod_nonneg _ (by omega), Int.emod_lt_of_pos _ hP⟩

theorem lookup_key_congr (l : CubeHexLayout) (hP : 0 < l.chunk_voxel_period)
    (v : ExtrudedCubeHexCoord) :
    l.chunk_voxel_period ∣
      (v.z * (3 * l.chunk_voxel_radius + 1) - v.x - l.lookup_key v) := by
  rw [lookup_key_spec l hP v]
  have h := Int.emod_add_ediv (v.z * (3 * l.chunk_voxel_radius + 1) - v.x) l.chunk_voxel_period
  exact ⟨(v.z * (3 * l.chunk_voxel_radius + 1) - v.x) / l.chunk_voxel_period, by omega⟩

/-- Uniqueness: a zero-sum coordinate within cube-distance `2R` of the
origin whose key is divisible by the period must be the origin.  This is
what makes the periodic lookup table well-defined: distinct chunk centers
differ by at least `2R + 1` in cube distance. -/
theorem key_zero_small {radius : Int} (hR : 1 ≤ radius) {u : CubeHexCoord}
    (hsum : u.x + u.y + u.z = 0)
    (habs : (u.x.natAbs : Int) + (u.y.natAbs : Int) + (u.z.natAbs : Int) ≤ 4 * radius)
    (hdvd : periodOf radius ∣ keyOf radius u) : u = ⟨0, 0, 0⟩ := by
  have hx2 : (u.x.natAbs : Int) ≤ 2 * radius := by omega
  have hy2 : (u.y.natAbs : Int) ≤ 2 * radius := by omega
  have hz2 : (u.z.natAbs : Int) ≤ 2 * radius := by omega
  obtain ⟨m, hm⟩ := hdvd
  have hkey : u.z * (3 * radius + 1) - u.x = periodOf radius * m := hm
  have hP : periodOf radius = 3 * (radius * radius) + 3 * radius + 1 := by
    unfold periodOf; ring
  have hzu : u.z * (3 * radius + 1) ≤ (2 * radius) * (3 * radius + 1) := by
    apply mul_le_mul_of_nonneg_right (by omega) (by omega)
  have hzl : (-(2 * radius)) * (3 * radius + 1) ≤ u.z * (3 * radius + 1) := by
    apply mul_le_mul_of_nonneg_right (by omega) (by omega)
  have he1 : (2 * radius) * (3 * radius + 1) = 6 * (radius * radius) + 2 * radius := by ring
  have he2 : (-(2 * radius)) * (3 * radius + 1) = -(6 * (radius * radius)) - 2 * radius := by
    ring
  have hm1 : -1 ≤ m := by
    by_contra hcon
    push_neg at hcon
    have hm2 : m ≤ -2 := by omega
    have : periodOf radius * m ≤ periodOf radius * (-2) :=
      mul_le_mul_of_nonneg_left hm2 (by have := periodOf_pos radius; omega)
    have he3 : periodOf radius * (-2) = -(6 * (radius * radius)) - 6 * radius - 2 := by
      rw [hP]; ring
    omega
  have hm2 : m ≤ 1 := by
    by_contra hcon
    push_neg at hcon
    have hm3 : 2 ≤ m := by omega
    have : periodOf radius * 2 ≤ periodOf radius * m :=
      mul_le_mul_of_nonneg_left hm3 (by have := periodOf_pos radius; omega)
    have he3 : periodOf radius * 2 = 6 * (radius * radius) + 6 * radius + 2 := by
      rw [hP]; ring
    omega
  interval_cases m
  · -- m = -1 : impossible
    exfalso
    rcases le_or_lt u.z (-(radius + 1)) with hz | hz
    · have : u.z * (3 * radius + 1) ≤ (-(radius + 1)) * (3 * radius + 1) :=
        mul_le_mul_of_nonneg_right hz (by omega)
      have he3 : (-(radius + 1)) * (3 * radius + 1) = -(3 * (radius * radius)) - 4 * radius - 1 := by
        ring
      -- then u.x = u.z(3R+1) + P ≤ -radius, and u.y = -u.x - u.z ≥ 2 radius + 1
      omega
    · have hz' : -radius ≤ u.z := by omega
      have : (-radius) * (3 * radius + 1) ≤ u.z * (3 * radius + 1) :=
        mul_le_mul_of_nonneg_right hz' (by omega)
      have he3 : (-radius) * (3 * radius + 1) = -(3 * (radius * radius)) - radius := by ring
      omega
  · -- m = 0 : u must be the origin
    rcases lt_trichotomy u.z 0 with hz | hz | hz
    · exfalso
      have hz1 : u.z ≤ -1 := by omega
      have : u.z * (3 * radius + 1) ≤ (-1) * (3 * radius + 1) :=
        mul_le_mul_of_nonneg_right hz1 (by omega)
      omega
    · have hA : u.z * (3 * radius + 1) = 0 := by rw [hz]; ring
      have hx0 : u.x = 0 := by omega
      have hy0 : u.y = 0 := by omega
      cases u
      simp_all
    · exfalso
      have hz1 : 1 ≤ u.z := by omega
      have : (1 : Int) * (3 * radius + 1) ≤ u.z * (3 * radius + 1) :=
        mul_le_mul_of_nonneg_right hz1 (by omega)
      omega
  · -- m = 1 : impossible
    exfalso
    rcases le_or_lt (radius + 1) u.z with hz | hz
    · have : (radius + 1) * (3 * radius + 1) ≤ u.z * (3 * radius + 1) :=
        mul_le_mul_of_nonneg_right hz (by omega)
      have he3 : (radius + 1) * (3 * radius + 1) = 3 * (radius * radius) + 4 * radius + 1 := by
        ring
      omega
    · have hz' : u.z ≤ radius := by omega
      have : u.z * (3 * radius + 1) ≤ radius * (3 * radius + 1) :=
        mul_le_mul_of_nonneg_right hz' (by omega)
      have he3 : radius * (3 * radius + 1) = 3 * (radius * radius) + radius := by ring
      omega

theorem keyOf_add (radius : Int) (a b : CubeHexCoord) :
    keyOf radius (a + b) = keyOf radius a + keyOf radius b := by
  simp only [keyOf, CubeHexCoord.add_def]
  ring

theorem distance_step_add_left (a e : CubeHexCoord) (radius : Int)
    (hz : e.x + e.y + e.z = 0)
    (habs : (e.x.natAbs : Int) + (e.y.natAbs : Int) + (e.z.natAbs : Int) ≤ 2 * radius) :
    (a + e).distance_step a ≤ radius := by
  simp only [CubeHexCoord.distance_step, CubeHexCoord.add_def]
  omega

theorem new_chunk_voxel_radius (origin : CubeHexCoord) (vr vh : Rat) (R ch : Int) :
    (CubeHexLayout.new origin vr R ch vh).chunk_voxel_radius = R := rfl

theorem new_chunk_voxel_period (origin : CubeHexCoord) (vr vh : Rat) (R ch : Int) :
    (CubeHexLayout.new origin vr R ch vh).chunk_voxel_period = periodOf R := rfl

theorem new_chunk_lookup (origin : CubeHexCoord) (vr vh : Rat) (R ch : Int) :
    (CubeHexLayout.new origin vr R ch vh).chunk_lookup = (build_lookup R).2 := rfl

theorem voxel_to_chunk_spec (origin : CubeHexCoord) (vr vh : Rat) (R ch : Int) (hR : 1 ≤ R)
    (v : ExtrudedCubeHexCoord) :
    ∃ e : CubeHexCoord,
      (CubeHexLayout.new origin vr R ch vh).voxel_to_chunk v = v.get_base + e ∧
      e.x + e.y + e.z = 0 ∧
      (e.x.natAbs : Int) + (e.y.natAbs : Int) + (e.z.natAbs : Int) ≤ 2 * R ∧
      periodOf R ∣ (keyOf R e + keyOf R v.get_base) := by
  have hper : (CubeHexLayout.new origin vr R ch vh).chunk_voxel_period = periodOf R := rfl
  have hP : 0 < (CubeHexLayout.new origin vr R ch vh).chunk_voxel_period := by
    rw [hper]; exact periodOf_pos R
  obtain ⟨hk0, hk1⟩ := lookup_key_range _ hP v
  rw [hper] at hk1
  refine ⟨(CubeHexLayout.new origin vr R ch vh).chunk_lookup.getD
    ((CubeHexLayout.new origin vr R ch vh).lookup_key v).toNat default, rfl, ?_⟩
  have hgood := build_lookup_good R hR
    ((CubeHexLayout.new origin vr R ch vh).lookup_key v).toNat (by omega)
  rw [← new_chunk_lookup origin vr vh R ch] at hgood
  obtain ⟨g1, g2, g3⟩ := hgood
  refine ⟨g1, g2, ?_⟩
  have hcast : ((((CubeHexLayout.new origin vr R ch vh).lookup_key v).toNat : Nat) : Int) =
      (CubeHexLayout.new origin vr R ch vh).lookup_key v := by omega
  rw [hcast] at g3
  have hcong := lookup_key_congr _ hP v
  rw [hper] at hcong
  have hbase : keyOf R v.get_base =
      v.z * (3 * (CubeHexLayout.new origin vr R ch vh).chunk_voxel_radius + 1) - v.x := rfl
  have hsplit : keyOf R ((CubeHexLayout.new origin vr R ch vh).chunk_lookup.getD
        ((CubeHexLayout.new origin vr R ch vh).lookup_key v).toNat default) +
      keyOf R v.get_base =
      (keyOf R ((CubeHexLayout.new origin vr R ch vh).chunk_lookup.getD
        ((CubeHexLayout.new origin vr R ch vh).lookup_key v).toNat default) +
        (CubeHexLayout.new origin vr R ch vh).lookup_key v) +
      (v.z * (3 * (CubeHexLayout.new origin vr R ch vh).chunk_voxel_radius + 1) - v.x -
        (CubeHexLayout.new origin vr R ch vh).lookup_key v) := by
    rw [hbase]; ring
  rw [hsplit]
  exact dvd_add g3 hcong

theorem get_ring_mem {l : CubeHexLayout} {c w : CubeHexCoord} {d : Int}
    (h : w ∈ l.get_ring c d) :
    ∃ u : CubeHexCoord, w = c + u ∧ u.x + u.y + u.z = 0 ∧
      (u.x.natAbs : Int) + (u.y.natAbs : Int) + (u.z.natAbs : Int) ≤ 2 * d := by
  unfold CubeHexLayout.get_ring at h
  rw [List.mem_flatMap] at h
  obtain ⟨i, hi, hw⟩ := h
  rw [mem_intRangeIncl] at hi
  rw [List.mem_map] at hw
  obtain ⟨rot, hrot, hw⟩ := hw
  rw [List.mem_range] at hrot
  refine ⟨hex_rot_elem i (d - i) (-d) rot, hw.symm, ?_, ?_⟩
  · interval_cases rot <;>
      (simp [hex_rot_elem, CubeHexCoord.from_axis_coord]; try ring_nf) <;> omega
  · interval_cases rot <;>
      simp [hex_rot_elem, CubeHexCoord.from_axis_coord, -Int.natCast_natAbs] <;> omega

theorem get_chunk_voxels_mem {l : CubeHexLayout} {c : CubeHexCoord} {u : ExtrudedCubeHexCoord}
    (hRnn : 0 ≤ l.chunk_voxel_radius) (h : u ∈ l.get_chunk_voxels c) :
    ∃ w : CubeHexCoord, u.get_base = c + w ∧ w.x + w.y + w.z = 0 ∧
      (w.x.natAbs : Int) + (w.y.natAbs : Int) + (w.z.natAbs : Int) ≤
        2 * l.chunk_voxel_radius := by
  unfold CubeHexLayout.get_chunk_voxels at h
  rw [List.mem_flatMap] at h
  obtain ⟨base_hex, hb, hu⟩ := h
  rw [List.mem_map] at hu
  obtain ⟨hh, hhm, hu⟩ := hu
  have hbase : u.get_base = base_hex := by
    rw [← hu]; rfl
  rw [List.mem_append] at hb
  rcases hb with hb | hb
  · rw [List.mem_singleton] at hb
    refine ⟨⟨0, 0, 0⟩, ?_, by simp, by simp; omega⟩
    rw [hbase, hb]
    cases c
    simp [CubeHexCoord.add_def]
  · rw [List.mem_flatMap] at hb
    obtain ⟨ring, hring, hbr⟩ := hb
    rw [mem_intRangeIncl] at hring
    obtain ⟨w, hw1, hw2, hw3⟩ := get_ring_mem hbr
    exact ⟨w, by rw [hbase, hw1], hw2, by omega⟩

theorem chunk_resolve (origin : CubeHexCoord) (vr vh : Rat) (R ch : Int) (hR : 1 ≤ R)
    (c w : CubeHexCoord) (hkc : periodOf R ∣ keyOf R c)
    (hwz : w.x + w.y + w.z = 0)
    (hwa : (w.x.natAbs : Int) + (w.y.natAbs : Int) + (w.z.natAbs : Int) ≤ 2 * R)
    (u : ExtrudedCubeHexCoord) (hbase : u.get_base = c + w) :
    (CubeHexLayout.new origin vr R ch vh).voxel_to_chunk u = c := by
  obtain ⟨e, he1, he2, he3, he4⟩ := voxel_to_chunk_spec origin vr vh R ch hR u
  have hsum : periodOf R ∣ keyOf R (w + e) := by
    have h1 : keyOf R (w + e) = (keyOf R e + keyOf R u.get_base) - keyOf R c := by
      rw [hbase, keyOf_add, keyOf_add]; ring
    rw [h1]
    exact dvd_sub he4 hkc
  have hz : (w + e).x + (w + e).y + (w + e).z = 0 := by
    simp only [CubeHexCoord.add_def]; omega
  have habs : ((w + e).x.natAbs : Int) + ((w + e).y.natAbs : Int) + ((w + e).z.natAbs : Int) ≤
      4 * R := by
    simp only [CubeHexCoord.add_def]; omega
  have h0 := key_zero_small hR hz habs hsum
  have hx : w.x + e.x = 0 := by
    have := congrArg CubeHexCoord.x h0
    simpa [CubeHexCoord.add_def] using this
  have hy : w.y + e.y = 0 := by
    have := congrArg CubeHexCoord.y h0
    simpa [CubeHexCoord.add_def] using this
  have hz' : w.z + e.z = 0 := by
    have := congrArg CubeHexCoord.z h0
    simpa [CubeHexCoord.add_def] using this
  rw [he1, hbase]
  cases c
  simp only [CubeHexCoord.add_def, CubeHexCoord.mk.injEq]
  refine ⟨by omega, by omega, by omega⟩

/-- C1: for every layout built with chunk radius `R ≥ 1` and every voxel `v`,
the chunk id returned by `voxel_to_chunk` is at cube-distance
(`distance_step`) at most `R` from the voxel's planar coordinate, and every
tile enumerated by `get_chunk_voxels` for that chunk (its center plus the
rings out to `R`, at every height) resolves via `voxel_to_chunk` back to the
same chunk id. -/
theorem hex_voxel_to_chunk_correct (origin : CubeHexCoord) (vr vh : Rat) (R ch : Int)
    (hR : 1 ≤ R) (v : ExtrudedCubeHexCoord) :
    ((CubeHexLayout.new origin vr R ch vh).voxel_to_chunk v).distance_step v.get_base ≤ R ∧
    ∀ u ∈ (CubeHexLayout.new origin vr R ch vh).get_chunk_voxels
        ((CubeHexLayout.new origin vr R ch vh).voxel_to_chunk v),
      (CubeHexLayout.new origin vr R ch vh).voxel_to_chunk u =
        (CubeHexLayout.new origin vr R ch vh).voxel_to_chunk v := by
  obtain ⟨e, he1, he2, he3, he4⟩ := voxel_to_chunk_spec origin vr vh R ch hR v
  constructor
  · rw [he1]
    exact distance_step_add_left _ _ _ he2 he3
  · intro u hu
    have hkc : periodOf R ∣ keyOf R ((CubeHexLayout.new origin vr R ch vh).voxel_to_chunk v) := by
      rw [he1, keyOf_add]
      have hcomm : keyOf R v.get_base + keyOf R e = keyOf R e + keyOf R v.get_base := by ring
      rw [hcomm]
      exact he4
    obtain ⟨w, hw1, hw2, hw3⟩ := get_chunk_voxels_mem
      (by rw [new_chunk_voxel_radius]; omega) hu
    rw [new_chunk_voxel_radius] at hw3
    exact chunk_resolve origin vr vh R ch hR _ w hkc hw2 hw3 u hw1

/-- C10 (implicit totality/no-panic): for every layout built with chunk
radius `R ≥ 1` and every voxel, the wrapped key computed by
`voxel_to_chunk` lies in `[0, period)`, and as an index it is strictly
below the length of the `chunk_lookup` table (which has `period + 1`
entries), so the table access cannot go out of bounds. -/
theorem hex_lookup_key_in_bounds (origin : CubeHexCoord) (vr vh : Rat) (R ch : Int)
    (hR : 1 ≤ R) (v : ExtrudedCubeHexCoord) :
    0 ≤ (CubeHexLayout.new origin vr R ch vh).lookup_key v ∧
    (CubeHexLayout.new origin vr R ch vh).lookup_key v <
      (CubeHexLayout.new origin vr R ch vh).chunk_voxel_period ∧
    ((CubeHexLayout.new origin vr R ch vh).lookup_key v).toNat <
      (CubeHexLayout.new origin vr R ch vh).chunk_lookup.length := by
  have hper : (CubeHexLayout.new origin vr R ch vh).chunk_voxel_period = periodOf R := rfl
  have hP : 0 < (CubeHexLayout.new origin vr R ch vh).chunk_voxel_period := by
    rw [hper]; exact periodOf_pos R
  obtain ⟨h0, h1⟩ := lookup_key_range _ hP v
  refine ⟨h0, h1, ?_⟩
  have hlen : (CubeHexLayout.new origin vr R ch vh).chunk_lookup.length =
      (periodOf R + 1).toNat := by
    rw [new_chunk_lookup]
    exact build_lookup_length R hR
  rw [hlen]
  rw [hper] at h1
  omega

theorem hex_voxel_to_chunk_correct_witness :
    (1 : Int) ≤ 1 ∧
    ((CubeHexLayout.new ⟨0, 0, 0⟩ 1 1 20 1).voxel_to_chunk
      (ExtrudedCubeHexCoord.from_xzh 2 3 0)).distance_step
      (ExtrudedCubeHexCoord.from_xzh 2 3 0).get_base ≤ 1 ∧
    (CubeHexLayout.new ⟨0, 0, 0⟩ 1 1 20 1).voxel_to_chunk ⟨2, -6, 4, 0⟩ =
      (CubeHexLayout.new ⟨0, 0, 0⟩ 1 1 20 1).voxel_to_chunk
        (ExtrudedCubeHexCoord.from_xzh 2 3 0) :=
  ⟨le_refl 1,
    (hex_voxel_to_chunk_correct ⟨0, 0, 0⟩ 1 1 1 20 (le_refl 1)
      (ExtrudedCubeHexCoord.from_xzh 2 3 0)).1,
    (hex_voxel_to_chunk_correct ⟨0, 0, 0⟩ 1 1 1 20 (le_refl 1)
      (ExtrudedCubeHexCoord.from_xzh 2 3 0)).2 ⟨2, -6, 4, 0⟩ (by decide)⟩

theorem hex_lookup_key_in_bounds_witness :
    (1 : Int) ≤ 1 ∧
    (0 ≤ (CubeHexLayout.new ⟨0, 0, 0⟩ 1 1 20 1).lookup_key
        (ExtrudedCubeHexCoord.from_xzh 2 3 0) ∧
      (CubeHexLayout.new ⟨0, 0, 0⟩ 1 1 20 1).lookup_key (ExtrudedCubeHexCoord.from_xzh 2 3 0) <
        (CubeHexLayout.new ⟨0, 0, 0⟩ 1 1 20 1).chunk_voxel_period ∧
      ((CubeHexLayout.new ⟨0, 0, 0⟩ 1 1 20 1).lookup_key
          (ExtrudedCubeHexCoord.from_xzh 2 3 0)).toNat <
        (CubeHexLayout.new ⟨0, 0, 0⟩ 1 1 20 1).chunk_lookup.length) :=
  ⟨le_refl 1,
    hex_lookup_key_in_bounds ⟨0, 0, 0⟩ 1 1 1 20 (le_refl 1)
      (ExtrudedCubeHexCoord.from_xzh 2 3 0)⟩

/-! Counting helpers for the neighbor-enumeration claims. -/

theorem count_flatMap {α β : Type} [DecidableEq β] (l : List α) (f : α → List β) (x : β) :
    (l.flatMap f).count x = (l.map fun a => (f a).count x).sum := by
  induction l with
  | nil => simp
  | cons a t ih => simp [List.flatMap_cons, List.count_append, ih]

theorem length_flatMap_const {α β : Type} (l : List α) (f : α → List β) (c : Nat)
    (h : ∀ a ∈ l, (f a).length = c) : (l.flatMap f).length = l.length * c := by
  induction l with
  | nil => simp
  | cons a t ih =>
    rw [List.flatMap_cons, List.length_append, h a (by simp), ih (fun b hb => h b (by simp [hb]))]
    simp [List.length_cons]
    ring

theorem count_flatMap_eq_one {α β : Type} [DecidableEq α] (l : List β) (g : β → List α)
    (x : α) (b0 : β) (hmem : b0 ∈ l) (hnd : l.Nodup) (h1 : (g b0).count x = 1)
    (h0 : ∀ b ∈ l, b ≠ b0 → x ∉ g b) : (l.flatMap g).count x = 1 := by
  induction l with
  | nil => cases hmem
  | cons a t ih =>
    rw [List.flatMap_cons, List.count_append]
    rcases List.mem_cons.mp hmem with heq | hmem'
    · have hz : (t.flatMap g).count x = 0 := by
        rw [List.count_eq_zero]
        intro hx
        rw [List.mem_flatMap] at hx
        obtain ⟨b, hb, hxb⟩ := hx
        have hbne : b ≠ b0 := by
          rintro rfl
          rw [← heq] at hnd
          exact (List.nodup_cons.mp hnd).1 hb
        exact h0 b (by simp [hb]) hbne hxb
      rw [← heq, h1, hz]
    · have ha0 : x ∉ g a := by
        refine h0 a (by simp) ?_
        rintro rfl
        exact (List.nodup_cons.mp hnd).1 hmem'
      rw [List.count_eq_zero.mpr ha0]
      have := ih hmem' (List.nodup_cons.mp hnd).2 (fun b hb hbne => h0 b (by simp [hb]) hbne)
      omega

theorem count_map_range {α : Type} [DecidableEq α] (n : Nat) (f : Nat → α) (x : α) (r0 : Nat)
    (hr : r0 < n) (h : ∀ rot, rot < n → (f rot = x ↔ rot = r0)) :
    ((List.range n).map f).count x = 1 := by
  induction n with
  | zero => omega
  | succ n ih =>
    rw [List.range_succ, List.map_append, List.map_singleton, List.count_append]
    rcases Nat.lt_or_ge r0 n with hlt | hge
    · rw [ih hlt (fun rot hrot => h rot (by omega))]
      have hz : ([f n].count x) = 0 := by
        rw [List.count_eq_zero]
        intro hx
        rw [List.mem_singleton] at hx
        have := (h n (by omega)).mp hx.symm
        omega
      rw [hz]
    · have hr0 : r0 = n := by omega
      have h1 : ([f n].count x) = 1 := by
        have hfx : f n = x := by
          rw [(h n (by omega))]
          omega
        simp [List.count_singleton, hfx]
      have hz : ((List.range n).map f).count x = 0 := by
        rw [List.count_eq_zero]
        intro hx
        rw [List.mem_map] at hx
        obtain ⟨rot, hrot, hfr⟩ := hx
        rw [List.mem_range] at hrot
        have := (h rot (by omega)).mp hfr
        omega
      rw [h1, hz]

theorem count_map_range_zero {α : Type} [DecidableEq α] (n : Nat) (f : Nat → α) (x : α)
    (h : ∀ rot, rot < n → f rot ≠ x) : ((List.range n).map f).count x = 0 := by
  rw [List.count_eq_zero]
  intro hx
  rw [List.mem_map] at hx
  obtain ⟨rot, hrot, hfr⟩ := hx
  rw [List.mem_range] at hrot
  exact h rot hrot hfr

theorem hex_elem_eq_basis (radius ρ i : Int) (rot : Nat) (hrot : rot < 6) :
    hex_rot_elem (-ρ * (2 * radius + 1) + i * radius)
      (radius * ρ + ρ - i * (2 * radius + 1))
      (radius * ρ + i * (2 * radius + 1) - i * radius) rot =
      basisVec radius (bp ρ i rot).1 (bp ρ i rot).2 := by
  interval_cases rot <;>
    (simp [hex_rot_elem, CubeHexCoord.from_axis_coord, basisVec, bp, CubeHexCoord.mk.injEq]
     <;> ring_nf) <;>
    refine ⟨by ring, by ring, by ring⟩

theorem basisVec_inj {radius a b a' b' : Int} (h : basisVec radius a b = basisVec radius a' b') :
    a = a' ∧ b = b' := by
  have hx := congrArg CubeHexCoord.x h
  have hz := congrArg CubeHexCoord.z h
  simp only [basisVec] at hx hz
  have hP := periodOf_pos radius
  have ha : periodOf radius * (a - a') = 0 := by
    have he : periodOf radius * (a - a') =
        radius * ((radius * a + (radius + 1) * b) - (radius * a' + (radius + 1) * b')) -
        (radius + 1) * ((-(2 * radius + 1) * a + radius * b) -
          (-(2 * radius + 1) * a' + radius * b')) := by
      unfold periodOf; ring
    rw [he, hx, hz]
    ring
  have hb : periodOf radius * (b - b') = 0 := by
    have he : periodOf radius * (b - b') =
        radius * ((-(2 * radius + 1) * a + radius * b) - (-(2 * radius + 1) * a' + radius * b')) +
        (2 * radius + 1) *
          ((radius * a + (radius + 1) * b) - (radius * a' + (radius + 1) * b')) := by
      unfold periodOf; ring
    rw [he, hx, hz]
    ring
  rcases mul_eq_zero.mp ha with h1 | h1
  · omega
  rcases mul_eq_zero.mp hb with h2 | h2
  · omega
  constructor <;> omega

theorem basisVec_neg (radius a b : Int) :
    basisVec radius (-a) (-b) = -(basisVec radius a b) := by
  simp only [basisVec, CubeHexCoord.neg_def, CubeHexCoord.mk.injEq]
  refine ⟨by ring, by ring, by ring⟩

theorem bp_neg (ρ i : Int) (rot : Nat) (h : rot < 6) :
    bp ρ i ((rot + 3) % 6) = (-(bp ρ i rot).1, -(bp ρ i rot).2) := by
  interval_cases rot <;> simp [bp]

theorem bp_inj {ρ1 i1 ρ2 i2 : Int} {rot1 rot2 : Nat}
    (h1ρ : 1 ≤ ρ1) (h1i : 0 ≤ i1) (h1i' : i1 < ρ1) (h1r : rot1 < 6)
    (h2ρ : 1 ≤ ρ2) (h2i : 0 ≤ i2) (h2i' : i2 < ρ2) (h2r : rot2 < 6)
    (heq : bp ρ1 i1 rot1 = bp ρ2 i2 rot2) : ρ1 = ρ2 ∧ i1 = i2 ∧ rot1 = rot2 := by
  interval_cases rot1 <;> interval_cases rot2 <;> simp [bp] at heq ⊢ <;> omega

theorem hexE_inj {radius ρ1 i1 ρ2 i2 : Int} {rot1 rot2 : Nat}
    (h1ρ : 1 ≤ ρ1) (h1i : 0 ≤ i1) (h1i' : i1 < ρ1) (h1r : rot1 < 6)
    (h2ρ : 1 ≤ ρ2) (h2i : 0 ≤ i2) (h2i' : i2 < ρ2) (h2r : rot2 < 6)
    (heq : basisVec radius (bp ρ1 i1 rot1).1 (bp ρ1 i1 rot1).2 =
      basisVec radius (bp ρ2 i2 rot2).1 (bp ρ2 i2 rot2).2) :
    ρ1 = ρ2 ∧ i1 = i2 ∧ rot1 = rot2 := by
  obtain ⟨ha, hb⟩ := basisVec_inj heq
  exact bp_inj h1ρ h1i h1i' h1r h2ρ h2i h2i' h2r (Prod.ext ha hb)

theorem add_left_cancel_coord {n a b : CubeHexCoord} (h : n + a = n + b) : a = b := by
  cases n; cases a; cases b
  simp only [CubeHexCoord.add_def, CubeHexCoord.mk.injEq] at h ⊢
  omega

theorem coord_eq_iff {a b : CubeHexCoord} : a = b ↔ a.x = b.x ∧ a.y = b.y ∧ a.z = b.z := by
  cases a; cases b
  simp [CubeHexCoord.mk.injEq]

theorem hex_neighbors_mem {l : CubeHexLayout} {c w : CubeHexCoord} {d : Int} :
    w ∈ l.get_chunk_neighbors c d ↔
      ∃ (ρ i : Int) (rot : Nat), 1 ≤ ρ ∧ ρ ≤ d ∧ 0 ≤ i ∧ i < ρ ∧ rot < 6 ∧
        w = c + basisVec l.chunk_voxel_radius (bp ρ i rot).1 (bp ρ i rot).2 := by
  unfold CubeHexLayout.get_chunk_neighbors
  simp only [List.mem_flatMap, List.mem_map, mem_intRangeIncl, List.mem_range]
  constructor
  · rintro ⟨ρ, ⟨hρ1, hρ2⟩, i, ⟨hi1, hi2⟩, rot, hrot, rfl⟩
    exact ⟨ρ, i, rot, hρ1, hρ2, hi1, by omega, hrot,
      by rw [hex_elem_eq_basis _ _ _ _ hrot]⟩
  · rintro ⟨ρ, i, rot, h1, h2, h3, h4, h5, rfl⟩
    exact ⟨ρ, ⟨h1, h2⟩, i, ⟨h3, by omega⟩, rot, h5,
      by rw [hex_elem_eq_basis _ _ _ _ h5]⟩

theorem hex_neighbors_mutual_count (l : CubeHexLayout) (c : CubeHexCoord) (d : Int)
    (n : CubeHexCoord) (hn : n ∈ l.get_chunk_neighbors c d) :
    (l.get_chunk_neighbors n d).count c = 1 := by
  obtain ⟨ρ0, i0, rot0, h1, h2, h3, h4, h5, hne⟩ := hex_neighbors_mem.mp hn
  have hrot3 : (rot0 + 3) % 6 < 6 := Nat.mod_lt _ (by norm_num)
  have hc : c = n + basisVec l.chunk_voxel_radius (bp ρ0 i0 ((rot0 + 3) % 6)).1
      (bp ρ0 i0 ((rot0 + 3) % 6)).2 := by
    rw [bp_neg _ _ _ h5]
    show c = n + basisVec l.chunk_voxel_radius (-(bp ρ0 i0 rot0).1) (-(bp ρ0 i0 rot0).2)
    rw [basisVec_neg, hne, coord_eq_iff]
    simp only [CubeHexCoord.add_def, CubeHexCoord.neg_def]
    omega
  have hkey : ∀ (ρ i : Int) (rot : Nat), 1 ≤ ρ → 0 ≤ i → i < ρ → rot < 6 →
      (n + basisVec l.chunk_voxel_radius (bp ρ i rot).1 (bp ρ i rot).2 = c ↔
        (ρ = ρ0 ∧ i = i0 ∧ rot = (rot0 + 3) % 6)) := by
    intro ρ i rot hρ hi hi' hrot
    constructor
    · intro hfe
      rw [hc] at hfe
      have hE := add_left_cancel_coord hfe
      exact hexE_inj hρ hi hi' hrot h1 h3 h4 hrot3 hE
    · rintro ⟨rfl, rfl, rfl⟩
      exact hc.symm
  unfold CubeHexLayout.get_chunk_neighbors
  apply count_flatMap_eq_one _ _ _ ρ0 (mem_intRangeIncl.mpr ⟨h1, h2⟩) (intRangeIncl_nodup 1 d)
  · apply count_flatMap_eq_one _ _ _ i0 (mem_intRangeIncl.mpr ⟨h3, by omega⟩)
      (intRangeIncl_nodup _ _)
    · apply count_map_range 6 _ _ ((rot0 + 3) % 6) hrot3
      intro rot hrot
      rw [hex_elem_eq_basis _ _ _ _ hrot]
      constructor
      · intro hfe
        exact ((hkey ρ0 i0 rot h1 h3 h4 hrot).mp hfe).2.2
      · rintro rfl
        exact (hkey ρ0 i0 ((rot0 + 3) % 6) h1 h3 h4 hrot3).mpr ⟨rfl, rfl, rfl⟩
    · intro i hi hine
      rw [mem_intRangeIncl] at hi
      intro hmem
      rw [List.mem_map] at hmem
      obtain ⟨rot, hrot, hfe⟩ := hmem
      rw [List.mem_range] at hrot
      rw [hex_elem_eq_basis _ _ _ _ hrot] at hfe
      obtain ⟨-, hii, -⟩ := (hkey ρ0 i rot h1 (by omega) (by omega) hrot).mp hfe
      exact hine hii
  · intro ρ hρ hρne
    rw [mem_intRangeIncl] at hρ
    intro hmem
    rw [List.mem_flatMap] at hmem
    obtain ⟨i, hi, hmem⟩ := hmem
    rw [mem_intRangeIncl] at hi
    rw [List.mem_map] at hmem
    obtain ⟨rot, hrot, hfe⟩ := hmem
    rw [List.mem_range] at hrot
    rw [hex_elem_eq_basis _ _ _ _ hrot] at hfe
    obtain ⟨hρρ, -, -⟩ := (hkey ρ i rot (by omega) (by omega) (by omega) hrot).mp hfe
    exact hρne hρρ

theorem hex_neighbors_length_nat (l : CubeHexLayout) (c : CubeHexCoord) (n : Nat) :
    (l.get_chunk_neighbors c (n : Int)).length = 3 * n * n + 3 * n := by
  induction n with
  | zero =>
    show ((intRangeIncl 1 ((0 : Nat) : Int)).flatMap _).length = _
    simp [intRangeIncl]
  | succ n ih =>
    show ((intRangeIncl 1 ((n + 1 : Nat) : Int)).flatMap _).length = _
    have hcast : ((n + 1 : Nat) : Int) = (n : Int) + 1 := by push_cast; ring
    rw [hcast, intRangeIncl_succ 1 (n : Int) (by omega), List.flatMap_append,
      List.length_append]
    have hih : ((intRangeIncl 1 ((n : Nat) : Int)).flatMap _).length = 3 * n * n + 3 * n := ih
    rw [hih]
    have hsing : (([(n : Int) + 1] : List Int).flatMap (fun ring =>
        (intRangeIncl 0 (ring - 1)).flatMap (fun i =>
          (List.range 6).map (fun rot =>
            c + hex_rot_elem (-ring * (2 * l.chunk_voxel_radius + 1) + i * l.chunk_voxel_radius)
              (l.chunk_voxel_radius * ring + ring - i * (2 * l.chunk_voxel_radius + 1))
              (l.chunk_voxel_radius * ring + i * (2 * l.chunk_voxel_radius + 1) -
                i * l.chunk_voxel_radius) rot)))).length = 6 * (n + 1) := by
      rw [List.flatMap_cons, List.flatMap_nil, List.append_nil]
      rw [length_flatMap_const _ _ 6 (fun a ha => by simp), length_intRangeIncl]
      have : ((n : Int) + 1 - 1 + 1 - 0).toNat = n + 1 := by omega
      rw [this]
      ring
    rw [hsing]
    ring

end hex_layout

namespace gen_terrain

theorem sq_elem_eq_bp2 (ρ j : Int) (rot : Nat) (hrot : rot < 4) :
    ChunkId.new (rotate_4x rot (-ρ + j) (-ρ)).1 (rotate_4x rot (-ρ + j) (-ρ)).2 =
      ChunkId.new (bp2 ρ j rot).1 (bp2 ρ j rot).2 := by
  interval_cases rot <;>
    simp [rotate_4x, bp2, ChunkId.new, ChunkId.mk.injEq] <;> omega

theorem bp2_neg (ρ j : Int) (rot : Nat) (h : rot < 4) :
    bp2 ρ j ((rot + 2) % 4) = (-(bp2 ρ j rot).1, -(bp2 ρ j rot).2) := by
  interval_cases rot <;> simp [bp2] <;> omega

theorem bp2_inj {ρ1 j1 ρ2 j2 : Int} {rot1 rot2 : Nat}
    (h1ρ : 1 ≤ ρ1) (h1j : 0 ≤ j1) (h1j' : j1 < 2 * ρ1) (h1r : rot1 < 4)
    (h2ρ : 1 ≤ ρ2) (h2j : 0 ≤ j2) (h2j' : j2 < 2 * ρ2) (h2r : rot2 < 4)
    (heq : bp2 ρ1 j1 rot1 = bp2 ρ2 j2 rot2) : ρ1 = ρ2 ∧ j1 = j2 ∧ rot1 = rot2 := by
  interval_cases rot1 <;> interval_cases rot2 <;> simp [bp2] at heq ⊢ <;> omega

theorem chunk_add_left_cancel {n a b : ChunkId} (h : n + a = n + b) : a = b := by
  cases n; cases a; cases b
  simp only [ChunkId.add_xy, ChunkId.mk.injEq] at h ⊢
  omega

theorem chunk_eq_iff {a b : ChunkId} : a = b ↔ a.x = b.x ∧ a.y = b.y := by
  cases a; cases b
  simp [ChunkId.mk.injEq]

theorem sq_neighbors_mem {l : CubicVoxelLayout} {c w : ChunkId} {d : Int} :
    w ∈ l.get_chunk_neighbors c d ↔
      ∃ (ρ j : Int) (rot : Nat), 1 ≤ ρ ∧ ρ ≤ d ∧ 0 ≤ j ∧ j < 2 * ρ ∧ rot < 4 ∧
        w = c + ChunkId.new (bp2 ρ j rot).1 (bp2 ρ j rot).2 := by
  unfold CubicVoxelLayout.get_chunk_neighbors
  simp only [List.mem_flatMap, List.mem_map, mem_intRangeIncl, List.mem_range]
  constructor
  · rintro ⟨ρ, ⟨hρ1, hρ2⟩, j, ⟨hj1, hj2⟩, rot, hrot, rfl⟩
    exact ⟨ρ, j, rot, hρ1, hρ2, hj1, by omega, hrot,
      by rw [sq_elem_eq_bp2 _ _ _ hrot]⟩
  · rintro ⟨ρ, j, rot, h1, h2, h3, h4, h5, rfl⟩
    exact ⟨ρ, ⟨h1, h2⟩, j, ⟨h3, by omega⟩, rot, h5,
      by rw [sq_elem_eq_bp2 _ _ _ h5]⟩

theorem sq_neighbors_mutual_count (l : CubicVoxelLayout) (c : ChunkId) (d : Int)
    (n : ChunkId) (hn : n ∈ l.get_chunk_neighbors c d) :
    (l.get_chunk_neighbors n d).count c = 1 := by
  obtain ⟨ρ0, j0, rot0, h1, h2, h3, h4, h5, hne⟩ := sq_neighbors_mem.mp hn
  have hrot2 : (rot0 + 2) % 4 < 4 := Nat.mod_lt _ (by norm_num)
  have hc : c = n + ChunkId.new (bp2 ρ0 j0 ((rot0 + 2) % 4)).1
      (bp2 ρ0 j0 ((rot0 + 2) % 4)).2 := by
    rw [bp2_neg _ _ _ h5]
    show c = n + ChunkId.new (-(bp2 ρ0 j0 rot0).1) (-(bp2 ρ0 j0 rot0).2)
    rw [hne, chunk_eq_iff]
    simp only [ChunkId.add_xy, ChunkId.new]
    omega
  have hkey : ∀ (ρ j : Int) (rot : Nat), 1 ≤ ρ → 0 ≤ j → j < 2 * ρ → rot < 4 →
      (n + ChunkId.new (bp2 ρ j rot).1 (bp2 ρ j rot).2 = c ↔
        (ρ = ρ0 ∧ j = j0 ∧ rot = (rot0 + 2) % 4)) := by
    intro ρ j rot hρ hj hj' hrot
    constructor
    · intro hfe
      rw [hc] at hfe
      have hE := chunk_add_left_cancel hfe
      have hpair : bp2 ρ j rot = bp2 ρ0 j0 ((rot0 + 2) % 4) := by
        have hx := congrArg ChunkId.x hE
        have hy := congrArg ChunkId.y hE
        simp only [ChunkId.new] at hx hy
        exact Prod.ext hx hy
      exact bp2_inj hρ hj hj' hrot h1 h3 h4 hrot2 hpair
    · rintro ⟨rfl, rfl, rfl⟩
      exact hc.symm
  unfold CubicVoxelLayout.get_chunk_neighbors
  apply hex_layout.count_flatMap_eq_one _ _ _ ρ0 (mem_intRangeIncl.mpr ⟨h1, h2⟩) (intRangeIncl_nodup 1 d)
  · apply hex_layout.count_flatMap_eq_one _ _ _ j0 (mem_intRangeIncl.mpr ⟨h3, by omega⟩)
      (intRangeIncl_nodup _ _)
    · apply hex_layout.count_map_range 4 _ _ ((rot0 + 2) % 4) hrot2
      intro rot hrot
      show n + ChunkId.new (rotate_4x rot (-ρ0 + j0) (-ρ0)).1
          (rotate_4x rot (-ρ0 + j0) (-ρ0)).2 = c ↔ rot = (rot0 + 2) % 4
      rw [sq_elem_eq_bp2 _ _ _ hrot]
      constructor
      · intro hfe
        exact ((hkey ρ0 j0 rot h1 h3 h4 hrot).mp hfe).2.2
      · rintro rfl
        exact (hkey ρ0 j0 ((rot0 + 2) % 4) h1 h3 h4 hrot2).mpr ⟨rfl, rfl, rfl⟩
    · intro j hj hjne
      rw [mem_intRangeIncl] at hj
      intro hmem
      rw [List.mem_map] at hmem
      obtain ⟨rot, hrot, hfe⟩ := hmem
      rw [List.mem_range] at hrot
      simp only [sq_elem_eq_bp2 _ _ _ hrot] at hfe
      obtain ⟨-, hjj, -⟩ := (hkey ρ0 j rot h1 (by omega) (by omega) hrot).mp hfe
      exact hjne hjj
  · intro ρ hρ hρne
    rw [mem_intRangeIncl] at hρ
    intro hmem
    rw [List.mem_flatMap] at hmem
    obtain ⟨j, hj, hmem⟩ := hmem
    rw [mem_intRangeIncl] at hj
    rw [List.mem_map] at hmem
    obtain ⟨rot, hrot, hfe⟩ := hmem
    rw [List.mem_range] at hrot
    simp only [sq_elem_eq_bp2 _ _ _ hrot] at hfe
    obtain ⟨hρρ, -, -⟩ := (hkey ρ j rot (by omega) (by omega) (by omega) hrot).mp hfe
    exact hρne hρρ

theorem sq_neighbors_length_nat (l : CubicVoxelLayout) (c : ChunkId) (n : Nat) :
    (l.get_chunk_neighbors c (n : Int)).length = 4 * n * n + 4 * n := by
  induction n with
  | zero =>
    show ((intRangeIncl 1 ((0 : Nat) : Int)).flatMap _).length = _
    simp [intRangeIncl]
  | succ n ih =>
    show ((intRangeIncl 1 ((n + 1 : Nat) : Int)).flatMap _).length = _
    have hcast : ((n + 1 : Nat) : Int) = (n : Int) + 1 := by push_cast; ring
    rw [hcast, intRangeIncl_succ 1 (n : Int) (by omega), List.flatMap_append,
      List.length_append]
    have hih : ((intRangeIncl 1 ((n : Nat) : Int)).flatMap _).length = 4 * n * n + 4 * n := ih
    rw [hih]
    have hsing : (([(n : Int) + 1] : List Int).flatMap (fun ring =>
        (intRangeIncl 0 (2 * ring - 1)).flatMap (fun offset =>
          (List.range 4).map (fun k =>
            let v2 := rotate_4x k (-ring + offset) (-ring)
            c + ChunkId.new v2.1 v2.2)))).length = 8 * (n + 1) := by
      rw [List.flatMap_cons, List.flatMap_nil, List.append_nil]
      rw [hex_layout.length_flatMap_const _ _ 4 (fun a ha => by simp), length_intRangeIncl]
      have : (2 * ((n : Int) + 1) - 1 + 1 - 0).toNat = 2 * (n + 1) := by omega
      rw [this]
      ring
    rw [hsing]
    ring

end gen_terrain

/-- C2 counterexample: for the hex layout with chunk radius 1 the neighbor
enumeration at ring distance `d = 2` yields 18 chunk ids (the full
neighborhood `3d² + 3d`), not `6d = 12` as the claim states. -/
theorem hex_neighbor_count_not_six_d :
    ¬ (((hex_layout.CubeHexLayout.new ⟨0, 0, 0⟩ 1 1 20 1).get_chunk_neighbors
      ⟨0, 0, 0⟩ 2).length = 6 * 2) := by
  decide

/-- C2 (amended): for every layout and every ring distance `d ≥ 1`,
`get_chunk_neighbors(c, d)` yields exactly `3d² + 3d` chunk ids for the hex
layout (all rings `1..=d`; this equals `6d` only at `d = 1`), and exactly
`(2d+1)² − 1` chunk ids for the square-grid layout. -/
theorem neighbor_counts (d : Int) (hd : 1 ≤ d) :
    (∀ (l : hex_layout.CubeHexLayout) (c : hex_layout.CubeHexCoord),
      (((l.get_chunk_neighbors c d).length : Int) = 3 * d * d + 3 * d)) ∧
    (∀ (l2 : gen_terrain.CubicVoxelLayout) (c2 : gen_terrain.ChunkId),
      (((l2.get_chunk_neighbors c2 d).length : Int) = (2 * d + 1) * (2 * d + 1) - 1)) := by
  constructor
  · intro l c
    have hn : ((d.toNat : Nat) : Int) = d := by omega
    rw [← hn, hex_layout.hex_neighbors_length_nat]
    push_cast
    ring
  · intro l2 c2
    have hn : ((d.toNat : Nat) : Int) = d := by omega
    rw [← hn, gen_terrain.sq_neighbors_length_nat]
    push_cast
    ring

theorem neighbor_counts_witness :
    (1 : Int) ≤ 1 ∧
    (((hex_layout.CubeHexLayout.new ⟨0, 0, 0⟩ 1 1 20 1).get_chunk_neighbors
        ⟨0, 0, 0⟩ 1).length : Int) = 3 * 1 * 1 + 3 * 1 ∧
    (((gen_terrain.CubicVoxelLayout.new ⟨0, 0⟩ 1 1 1).get_chunk_neighbors
        ⟨0, 0⟩ 1).length : Int) = (2 * 1 + 1) * (2 * 1 + 1) - 1 :=
  ⟨le_refl 1, (neighbor_counts 1 (le_refl 1)).1 _ _, (neighbor_counts 1 (le_refl 1)).2 _ _⟩

/-- C3: neighbor membership is mutual for both layouts: whenever `n` is in
`get_chunk_neighbors(c, d)`, the chunk `c` appears exactly once in
`get_chunk_neighbors(n, d)`. -/
theorem neighbors_mutual_once (d : Int) :
    (∀ (l : hex_layout.CubeHexLayout) (c n : hex_layout.CubeHexCoord),
      n ∈ l.get_chunk_neighbors c d → (l.get_chunk_neighbors n d).count c = 1) ∧
    (∀ (l2 : gen_terrain.CubicVoxelLayout) (c2 n2 : gen_terrain.ChunkId),
      n2 ∈ l2.get_chunk_neighbors c2 d → (l2.get_chunk_neighbors n2 d).count c2 = 1) :=
  ⟨fun l c n hn => hex_layout.hex_neighbors_mutual_count l c d n hn,
    fun l2 c2 n2 hn => gen_terrain.sq_neighbors_mutual_count l2 c2 d n2 hn⟩

theorem neighbors_mutual_once_witness :
    ((⟨-3, 2, 1⟩ : hex_layout.CubeHexCoord) ∈
      (hex_layout.CubeHexLayout.new ⟨0, 0, 0⟩ 1 1 20 1).get_chunk_neighbors ⟨0, 0, 0⟩ 1) ∧
    (((hex_layout.CubeHexLayout.new ⟨0, 0, 0⟩ 1 1 20 1).get_chunk_neighbors
      ⟨-3, 2, 1⟩ 1).count ⟨0, 0, 0⟩ = 1) ∧
    ((⟨1, -1⟩ : gen_terrain.ChunkId) ∈
      (gen_terrain.CubicVoxelLayout.new ⟨0, 0⟩ 1 1 1).get_chunk_neighbors ⟨0, 0⟩ 1) ∧
    (((gen_terrain.CubicVoxelLayout.new ⟨0, 0⟩ 1 1 1).get_chunk_neighbors
      ⟨1, -1⟩ 1).count ⟨0, 0⟩ = 1) :=
  ⟨by decide, (neighbors_mutual_once 1).1 _ _ _ (by decide), by decide,
    (neighbors_mutual_once 1).2 _ _ _ (by decide)⟩

/-- C4 (code bug): the square-grid voxel round trip fails off the ground
plane: with the default layout (`voxel_side_length = 1`,
`chunk_voxel_height = 10`), the voxel `(0, 5, 0)` maps to space `(0, 5, 0)`
but `space_to_voxel` divides the `y` coordinate by `chunk_voxel_height`
and returns `(0, 0, 0)`. -/
theorem sq_voxel_roundtrip_fails :
    (gen_terrain.CubicVoxelLayout.new ⟨0, 0⟩ 1 11 10).space_to_voxel
      ((gen_terrain.CubicVoxelLayout.new ⟨0, 0⟩ 1 11 10).voxel_to_space ⟨0, 5, 0⟩) =
      ⟨0, 0, 0⟩ ∧ ((⟨0, 5, 0⟩ : gen_terrain.VoxelId) ≠ ⟨0, 0, 0⟩) := by
  refine ⟨?_, by decide⟩
  simp only [gen_terrain.CubicVoxelLayout.new, gen_terrain.CubicVoxelLayout.space_to_voxel,
    gen_terrain.CubicVoxelLayout.voxel_to_space, gen_terrain.CubicVoxelLayout.get_center_voxel,
    gen_terrain.CubicVoxelLayout.chunk_voxel_full_length, gen_terrain.truncQ,
    gen_terrain.VoxelId.add_xyz, gen_terrain.VoxelId.sub_xyz]
  norm_num

/-- C6 (code bug): `impl Add for CubeHexCoord` in `src/terrain/hex.rs`
computes the third component as `self.2 + self.2`, so adding two zero-sum
coordinates can produce a non-zero-sum result: `(0,-1,1) + (1,-1,0) =
(1,-2,2)`, whose components sum to 1. -/
theorem terrain_hex_add_breaks_zero_sum :
    ((⟨0, -1, 1⟩ : terrain_hex.CubeHexCoord).x + (⟨0, -1, 1⟩ : terrain_hex.CubeHexCoord).y +
      (⟨0, -1, 1⟩ : terrain_hex.CubeHexCoord).z = 0) ∧
    ((⟨1, -1, 0⟩ : terrain_hex.CubeHexCoord).x + (⟨1, -1, 0⟩ : terrain_hex.CubeHexCoord).y +
      (⟨1, -1, 0⟩ : terrain_hex.CubeHexCoord).z = 0) ∧
    ((⟨0, -1, 1⟩ : terrain_hex.CubeHexCoord) + ⟨1, -1, 0⟩ = ⟨1, -2, 2⟩) ∧
    (((⟨0, -1, 1⟩ : terrain_hex.CubeHexCoord) + ⟨1, -1, 0⟩).x +
      ((⟨0, -1, 1⟩ : terrain_hex.CubeHexCoord) + ⟨1, -1, 0⟩).y +
      ((⟨0, -1, 1⟩ : terrain_hex.CubeHexCoord) + ⟨1, -1, 0⟩).z ≠ 0) := by
  refine ⟨by decide, by decide, by decide, by decide⟩

/-- C7 counterexample: constructing either layout with chunk radius 0 (a
non-positive radius) does not fail: the constructors return ordinary,
usable layouts whose conversions compute results. -/
theorem construction_accepts_radius_zero :
    (hex_layout.CubeHexLayout.new ⟨0, 0, 0⟩ 1 0 20 1).chunk_voxel_period = 1 ∧
    (hex_layout.CubeHexLayout.new ⟨0, 0, 0⟩ 1 0 20 1).voxel_to_chunk
      (hex_layout.ExtrudedCubeHexCoord.from_xzh 5 7 0) = ⟨5, -12, 7⟩ ∧
    (gen_terrain.CubicVoxelLayout.new ⟨0, 0⟩ 1 0 0).chunk_voxel_full_length = 1 ∧
    (gen_terrain.CubicVoxelLayout.new ⟨0, 0⟩ 1 0 0).voxel_to_chunk ⟨3, 0, -4⟩ = ⟨3, -4⟩ := by
  refine ⟨by decide, by decide, by decide, by decide⟩

/-- C7 (amended): layout construction performs no validation: for every
radius and tile size, including non-positive ones, the constructors return
a layout with the given parameters stored (nothing is rejected at
construction time). -/
theorem layout_construction_no_validation (origin : hex_layout.CubeHexCoord) (vr vh : Rat)
    (radius ch : Int) (origin2 : gen_terrain.ChunkId) (s : Rat) (L H : Int) :
    (hex_layout.CubeHexLayout.new origin vr radius ch vh).chunk_voxel_radius = radius ∧
    (hex_layout.CubeHexLayout.new origin vr radius ch vh).chunk_voxel_period =
      hex_layout.periodOf radius ∧
    (gen_terrain.CubicVoxelLayout.new origin2 s L H).chunk_voxel_length = L ∧
    (gen_terrain.CubicVoxelLayout.new origin2 s L H).voxel_side_length = s :=
  ⟨rfl, rfl, rfl, rfl⟩

/-- C8: `ChunkTracker` first-spawn semantics: `try_spawn` returns true
exactly when the id was absent immediately before the call and the id is
in the set afterwards; `try_despawn` returns true exactly when the id was
present and removes it; hence a second `try_spawn` of the same id returns
false until a `try_despawn` intervenes, after which `try_spawn` returns
true again. -/
theorem chunk_tracker_spawn_despawn (t : gen_terrain.ChunkTracker) (c : gen_terrain.ChunkId) :
    ((t.try_spawn c).2 = true ↔ c ∉ t.loaded_chunks) ∧
    ((t.try_spawn c).1.loaded_chunks = insert c t.loaded_chunks) ∧
    ((t.try_despawn c).2 = true ↔ c ∈ t.loaded_chunks) ∧
    ((t.try_despawn c).1.loaded_chunks = t.loaded_chunks.erase c) ∧
    (((t.try_spawn c).1.try_spawn c).2 = false) ∧
    ((((t.try_spawn c).1.try_despawn c).1.try_spawn c).2 = true) := by
  unfold gen_terrain.ChunkTracker.try_spawn gen_terrain.ChunkTracker.try_despawn
  by_cases h : c ∈ t.loaded_chunks
  · simp [h, Finset.insert_eq_self.mpr h]
  · simp [h]

/-- C5 counterexample: the point `(-1/2, 0, -1/2)` has negative `x` and `z`,
yet `space_to_voxel` resolves it to voxel `(0, 0, 0)` (a non-negative
index) and `space_to_chunk` to chunk `(0, 0)`: the coordinate is truncated
toward zero to the integer `0` before `div_euclid` is applied. -/
theorem sq_space_to_voxel_truncation_counterexample :
    (-(1 : Rat) / 2 < 0) ∧
    ((gen_terrain.CubicVoxelLayout.new ⟨0, 0⟩ 1 1 1).space_to_voxel
      ⟨-(1 : Rat) / 2, 0, -(1 : Rat) / 2⟩ = ⟨0, 0, 0⟩) ∧
    ((gen_terrain.CubicVoxelLayout.new ⟨0, 0⟩ 1 1 1).space_to_chunk
      ⟨-(1 : Rat) / 2, 0, -(1 : Rat) / 2⟩ = ⟨0, 0⟩) := by
  refine ⟨by norm_num, ?_, ?_⟩ <;>
    (simp only [gen_terrain.CubicVoxelLayout.new, gen_terrain.CubicVoxelLayout.space_to_chunk,
      gen_terrain.CubicVoxelLayout.space_to_voxel, gen_terrain.CubicVoxelLayout.voxel_to_chunk,
      gen_terrain.CubicVoxelLayout.get_center_voxel,
      gen_terrain.CubicVoxelLayout.chunk_voxel_full_length, gen_terrain.truncQ,
      gen_terrain.VoxelId.add_xyz, gen_terrain.ChunkId.new]
     norm_num)

/-- C5 (amended): `space_to_voxel` applies `div_euclid`, but to the
coordinate already cast to an integer with truncation toward zero: every
point with `x ≤ -1` (in particular every integer-valued point with
negative `x`) resolves to a negative voxel index, while fractional points
with `-1 < x < 0` first truncate to the integer `0` and resolve to voxel
index `0`, not to a negative index. -/
theorem sq_space_to_voxel_negative (s : Rat) (L H : Int) (hs : 1 ≤ gen_terrain.truncQ s)
    (p : gen_terrain.Vec3q) :
    (p.x ≤ -1 → ((gen_terrain.CubicVoxelLayout.new ⟨0, 0⟩ s L H).space_to_voxel p).x < 0) ∧
    (-1 < p.x → p.x < 0 →
      ((gen_terrain.CubicVoxelLayout.new ⟨0, 0⟩ s L H).space_to_voxel p).x = 0) := by
  have hshape : ∀ q : gen_terrain.Vec3q,
      ((gen_terrain.CubicVoxelLayout.new ⟨0, 0⟩ s L H).space_to_voxel q).x =
        gen_terrain.truncQ q.x / gen_terrain.truncQ s := by
    intro q
    simp [gen_terrain.CubicVoxelLayout.new, gen_terrain.CubicVoxelLayout.space_to_voxel,
      gen_terrain.CubicVoxelLayout.get_center_voxel,
      gen_terrain.CubicVoxelLayout.chunk_voxel_full_length, gen_terrain.VoxelId.add_xyz]
  constructor
  · intro hx
    rw [hshape]
    have hnn : ¬ (0 ≤ p.x) := by
      intro h
      linarith
    have hfl : (1 : Int) ≤ ⌊-p.x⌋ := by
      rw [Int.le_floor]
      push_cast
      linarith
    have ht : gen_terrain.truncQ p.x ≤ -1 := by
      unfold gen_terrain.truncQ
      rw [if_neg hnn]
      omega
    exact Int.ediv_neg' (by omega) (by omega)
  · intro hx1 hx2
    rw [hshape]
    have hnn : ¬ (0 ≤ p.x) := by
      intro h
      linarith
    have h1 : (0 : Int) ≤ ⌊-p.x⌋ := by
      rw [Int.le_floor]
      push_cast
      linarith
    have h2 : ⌊-p.x⌋ < 1 := by
      rw [Int.floor_lt]
      push_cast
      linarith
    have ht : gen_terrain.truncQ p.x = 0 := by
      unfold gen_terrain.truncQ
      rw [if_neg hnn]
      omega
    rw [ht]
    exact Int.zero_ediv _

theorem sq_space_to_voxel_negative_witness :
    (1 ≤ gen_terrain.truncQ 1) ∧
    (((gen_terrain.CubicVoxelLayout.new ⟨0, 0⟩ 1 1 1).space_to_voxel ⟨-2, 0, 0⟩).x < 0) ∧
    (((gen_terrain.CubicVoxelLayout.new ⟨0, 0⟩ 1 1 1).space_to_voxel
      ⟨-(1 : Rat) / 2, 0, 0⟩).x = 0) :=
  ⟨by norm_num [gen_terrain.truncQ],
    (sq_space_to_voxel_negative 1 1 1 (by norm_num [gen_terrain.truncQ]) ⟨-2, 0, 0⟩).1
      (by norm_num),
    (sq_space_to_voxel_negative 1 1 1 (by norm_num [gen_terrain.truncQ])
      ⟨-(1 : Rat) / 2, 0, 0⟩).2 (by norm_num) (by norm_num)⟩

/-- A left fold of `min` over a list: the result is below the initial
value and below every element's value, and is either the initial value or
attained at some element. -/
theorem foldl_min_spec {α : Type} (f : α → Rat) (l : List α) (init : Rat) :
    l.foldl (fun acc c => min (f c) acc) init ≤ init ∧
    (∀ c ∈ l, l.foldl (fun acc c => min (f c) acc) init ≤ f c) ∧
    (l.foldl (fun acc c => min (f c) acc) init = init ∨
      ∃ c ∈ l, l.foldl (fun acc c => min (f c) acc) init = f c) := by
  induction l generalizing init with
  | nil => exact ⟨le_refl _, by simp, Or.inl rfl⟩
  | cons a l ih =>
    simp only [List.foldl_cons]
    obtain ⟨h1, h2, h3⟩ := ih (min (f a) init)
    refine ⟨le_trans h1 (min_le_right _ _), ?_, ?_⟩
    · intro c hc
      rcases List.mem_cons.mp hc with heq | hmem
      · rw [heq]
        exact le_trans h1 (min_le_left _ _)
      · exact h2 c hmem
    · rcases h3 with heq | ⟨c, hc, heq⟩
      · rcases le_total (f a) init with hle | hle
        · exact Or.inr ⟨a, List.mem_cons_self a l, by rw [heq, min_eq_left hle]⟩
        · exact Or.inl (by rw [heq, min_eq_right hle])
      · exact Or.inr ⟨c, List.mem_cons_of_mem a hc, heq⟩

/-- C9 counterexample: with one fresh site but no chunk records, the pass
returns with the site's `fresh` flag still set — the flags are cleared
inside the per-chunk loop, so they are not cleared when the chunk list is
empty, contradicting "after the pass every fresh site's fresh flag is
cleared". -/
theorem calc_chunk_distances_fresh_not_cleared :
    gen_terrain.calc_chunk_distances (fun a b => 0) []
      [⟨some ⟨0, 0⟩, true⟩] = some ([], [⟨some ⟨0, 0⟩, true⟩]) ∧
    ((⟨some ⟨0, 0⟩, true⟩ : gen_terrain.ChunkSpawner).fresh = true) :=
  ⟨rfl, rfl⟩

/-- C9 (amended): the distance pass is a no-op when no site is fresh, and
also (not in the claim) when there are no chunk records — in that case the
fresh flags are NOT cleared.  When some site is fresh, every fresh site
has an anchor chunk, and at least one chunk record exists, every chunk's
`distance_to_nearest_spawner` becomes the fold of `min` over the fresh
sites' anchor distances started at `f32::MAX`, all fresh flags are
cleared, and that value is a lower bound of (and, unless it stays at
`f32::MAX`, attained by) the anchor distances. -/
theorem calc_chunk_distances_spec (dist : gen_terrain.ChunkId → gen_terrain.ChunkId → Rat)
    (chunks : List gen_terrain.Chunk) (sites : List gen_terrain.ChunkSpawner)
    (anchors : List gen_terrain.ChunkId)
    (hfresh : (sites.filter (fun s => s.fresh)).mapM
      (fun s => s.last_loaded_chunk) = some anchors) :
    ((∀ s ∈ sites, s.fresh = false) →
      gen_terrain.calc_chunk_distances dist chunks sites = some (chunks, sites)) ∧
    (chunks = [] →
      gen_terrain.calc_chunk_distances dist chunks sites = some (chunks, sites)) ∧
    ((sites.filter (fun s => s.fresh)) ≠ [] → chunks ≠ [] →
      gen_terrain.calc_chunk_distances dist chunks sites =
        some (chunks.map (fun ch =>
            { ch with distance_to_nearest_spawner :=
                anchors.foldl (fun acc c => min (dist ch.id c) acc) gen_terrain.f32_max }),
          sites.map (fun s => { s with fresh := false })) ∧
      (∀ ch : gen_terrain.Chunk, ∀ c ∈ anchors,
        anchors.foldl (fun acc c => min (dist ch.id c) acc) gen_terrain.f32_max ≤
          dist ch.id c) ∧
      (∀ ch : gen_terrain.Chunk,
        anchors.foldl (fun acc c => min (dist ch.id c) acc) gen_terrain.f32_max =
          gen_terrain.f32_max ∨
        ∃ c ∈ anchors,
          anchors.foldl (fun acc c => min (dist ch.id c) acc) gen_terrain.f32_max =
            dist ch.id c)) := by
  refine ⟨?_, ?_, ?_⟩
  · intro hall
    have hfil : sites.filter (fun s => s.fresh) = [] := by
      rw [List.filter_eq_nil]
      intro s hs
      simp [hall s hs]
    simp [gen_terrain.calc_chunk_distances, hfil]
  · intro hc
    subst hc
    simp [gen_terrain.calc_chunk_distances]
  · intro hne hchunks
    have h1 : ¬((sites.filter (fun s => s.fresh)).length = 0) := by
      intro h
      exact hne (List.length_eq_zero.mp h)
    have h2 : chunks.isEmpty = false := by
      rcases chunks with _ | ⟨c, cs⟩
      · exact absurd rfl hchunks
      · rfl
    have h2' : ¬(chunks.isEmpty = true) := by simp [h2]
    refine ⟨?_, ?_, ?_⟩
    · simp only [gen_terrain.calc_chunk_distances, if_neg h1, if_neg h2']
      rw [hfresh]
    · intro ch c hc
      exact (foldl_min_spec (fun c => dist ch.id c) anchors gen_terrain.f32_max).2.1 c hc
    · intro ch
      exact (foldl_min_spec (fun c => dist ch.id c) anchors gen_terrain.f32_max).2.2

theorem calc_chunk_distances_spec_witness :
    gen_terrain.calc_chunk_distances (fun a b => 7) [⟨⟨3, 4⟩, 0⟩]
      [⟨some ⟨0, 0⟩, true⟩, ⟨none, false⟩] =
      some ([⟨⟨3, 4⟩, 7⟩], [⟨some ⟨0, 0⟩, false⟩, ⟨none, false⟩]) := by
  have h := ((calc_chunk_distances_spec (fun a b => 7) [⟨⟨3, 4⟩, 0⟩]
      [⟨some ⟨0, 0⟩, true⟩, ⟨none, false⟩] [⟨0, 0⟩] rfl).2.2
      (by decide) (by decide)).1
  rw [h]
  simp only [List.map_cons, List.map_nil, List.foldl_cons, List.foldl_nil]
  norm_num [gen_terrain.f32_max, min_def]
